import Mathlib

/-!
# docker-gen: container normalisation, template helpers and file generation

A shallow embedding of `docker_client.go` and `template.go`.

* Go strings are immutable byte sequences.  They are modelled by `Str`, a list
  whose elements stand for the bytes of the string (literals are written
  `"abc".toList`).
* Go maps are modelled by association lists with unique keys (`GoMap`); the
  order of the list is the order in which one `range` loop visits the map.
* A run-time panic is modelled by `none` in an `Option` result.
-/

namespace DockerGen

/-! ## Go strings -/

/-- A Go string: the list of its bytes. -/
abbrev Str := List Char

/-- Scan of `strings.Index`: the offset (counted from `i`) of the first position of
`s` at which `sub` starts, or `-1` when there is none. -/
def indexFrom (sub : Str) : Str → Nat → Int
  | [], i => if sub = [] then (i : Int) else -1
  | c :: cs, i => if sub.isPrefixOf (c :: cs) then (i : Int) else indexFrom sub cs (i + 1)

/-- Go `strings.Index(s, sub)`: offset of the first occurrence of `sub` in `s`, or `-1`. -/
def Index (s sub : Str) : Int := indexFrom sub s 0

/-- Go `strings.Contains(s, sub)`, which is `Index(s, sub) >= 0`. -/
def Contains (s sub : Str) : Bool := decide (0 ≤ Index s sub)

/-- Go slice expression `s[lo:hi]`.  Every use below has `0 ≤ lo ≤ hi ≤ len(s)`
(see `Index_bounds`), the range in which Go does not panic. -/
def slice (s : Str) (lo hi : Int) : Str := (s.take hi.toNat).drop lo.toNat

/-- Go slice expression `s[lo:]`. -/
def sliceFrom (s : Str) (lo : Int) : Str := s.drop lo.toNat

/-- Loop of Go `strings.genSplit` for a non-empty separator: at most `n` cuts at
successive first occurrences of `sep`; the rest of the string is the last element. -/
def genSplit (sep : Str) : Nat → Str → List Str
  | 0, s => [s]
  | n + 1, s =>
    let m := Index s sep
    if m < 0 then [s]
    else slice s 0 m :: genSplit sep n (sliceFrom s (m + sep.length))

/-- Go `strings.Split(s, sep)`.  Go bounds the loop by `Count(s, sep)`; the loop is
left at the first `Index` that is negative, so every bound that is at least the
number of occurrences gives the same result, and `len(s)` is such a bound.  For an
empty separator Go cuts after every UTF-8 sequence; here that is after every
element, which is exact for strings of single-byte characters. -/
def Split (s sep : Str) : List Str :=
  if sep = [] then s.map (fun c => [c]) else genSplit sep s.length s

/-- Go `strings.TrimLeft(s, cutset)`: `s` without all its leading characters that
occur in `cutset`. -/
def TrimLeft (s cutset : Str) : Str := s.dropWhile (fun c => decide (c ∈ cutset))

/-! ## Go maps -/

/-- A Go map, as an association list with unique keys. -/
abbrev GoMap (κ α : Type) := List (κ × α)

/-- Map read `m[k]` with the comma-ok flag: `none` when the key is absent. -/
def mapLookup {κ α : Type} [DecidableEq κ] : GoMap κ α → κ → Option α
  | [], _ => none
  | (k', a) :: m, k => if k' = k then some a else mapLookup m k

/-- Map write `m[k] = a`: overwrites the entry of `k`, or adds one. -/
def mapStore {κ α : Type} [DecidableEq κ] : GoMap κ α → κ → α → GoMap κ α
  | [], k, a => [(k, a)]
  | (k', a') :: m, k, a => if k' = k then (k, a) :: m else (k', a') :: mapStore m k a

/-! ## Data model -/

/-- Modelled from the spec: the declaration of `Address` (docker-gen.go) is not
among the sources; the fields are those `getContainers` assigns. -/
structure Address where
  IP : Str
  Port : Str
  HostPort : Str
  Proto : Str
deriving DecidableEq, Repr

/-- Modelled from the spec: the declaration of `Volume` is not among the sources;
the fields are those `getContainers` assigns. -/
structure Volume where
  Path : Str
  HostPath : Str
  ReadWrite : Bool
deriving DecidableEq, Repr

/-- Modelled from the spec: the declaration of `DockerImage` is not among the
sources; the fields are those `getContainers` assigns. -/
structure DockerImage where
  Registry : Str
  Repository : Str
  Tag : Str
deriving DecidableEq, Repr

/-- Modelled from the spec: the declaration of `RuntimeContainer` is not among the
sources; the fields are those `getContainers` assigns. -/
structure RuntimeContainer where
  ID : Str
  Addresses : List Address
  Gateway : Str
  Name : Str
  Hostname : Str
  Image : DockerImage
  Env : GoMap Str Str
  Volumes : GoMap Str Volume
deriving DecidableEq, Repr

/-- The client library's `docker.PortBinding`. -/
structure PortBinding where
  HostIp : Str
  HostPort : Str
deriving DecidableEq, Repr

/-- The part of the client library's `docker.Config` that `getContainers` reads. -/
structure DockerConfig where
  Hostname : Str
  Image : Str
  Env : List Str
deriving DecidableEq, Repr

/-- The part of the client library's `docker.NetworkSettings` that `getContainers`
reads.  `Ports` is the map from `docker.Port` (a string such as `80/tcp`) to the
host bindings, in the order in which the `range` loop visits it. -/
structure NetworkSettings where
  IPAddress : Str
  Gateway : Str
  Ports : GoMap Str (List PortBinding)
deriving DecidableEq, Repr

/-- The part of the client library's `docker.Container` (one raw inspection record)
that `getContainers` reads. -/
structure Container where
  ID : Str
  Name : Str
  Config : DockerConfig
  NetworkSettings : NetworkSettings
  Volumes : GoMap Str Str
  VolumesRW : GoMap Str Bool
deriving DecidableEq, Repr

/-- The client library's `Port.Port()`: the text before the first `/`. -/
def portNumber (p : Str) : Str := (Split p "/".toList).headD []

/-- The client library's `Port.Proto()`: the text after the first `/`, or `tcp`. -/
def portProto (p : Str) : Str :=
  match Split p "/".toList with
  | [_] => "tcp".toList
  | parts => parts.getD 1 []

/-! ## docker_client.go -/

/-- Source function `splitDockerImage`. -/
def splitDockerImage (img : Str) : Str × Str × Str :=
  let rr : Str × Str :=
    if Contains img "/".toList then
      let separator := Index img "/".toList
      (slice img 0 separator, sliceFrom img (separator + 1))
    else ([], img)
  let registry := rr.1
  let repository := rr.2
  if Contains repository ":".toList then
    let separator := Index repository ":".toList
    (registry, slice repository 0 separator, sliceFrom repository (separator + 1))
  else (registry, repository, [])

/-- Loop over `NetworkSettings.Ports` in `getContainers` (lines 130-142): one address
per declared port, with the host port of the first binding when there is one. -/
def portAddresses (ip : Str) (ports : GoMap Str (List PortBinding)) : List Address :=
  ports.foldl
    (fun addresses kv =>
      let address : Address := { IP := ip, Port := portNumber kv.1, Proto := portProto kv.1, HostPort := [] }
      let address := match kv.2 with
        | [] => address
        | b :: _ => { address with HostPort := b.HostPort }
      addresses ++ [address])
    []

/-- Lines 143-149 of `getContainers`: the fallback address when the list is empty. -/
def withFakeAddress (ip : Str) (addresses : List Address) : List Address :=
  if addresses.length = 0 then
    addresses ++ [{ IP := ip, Port := [], HostPort := [], Proto := [] }]
  else addresses

/-- Loop over `container.Volumes` in `getContainers` (lines 151-157); a path that
`VolumesRW` lacks reads as `false`. -/
def volumesOf (volumes : GoMap Str Str) (volumesRW : GoMap Str Bool) : GoMap Str Volume :=
  volumes.foldl
    (fun m kv =>
      mapStore m kv.1
        { Path := kv.1, HostPath := kv.2, ReadWrite := (mapLookup volumesRW kv.1).getD false })
    []

/-- Loop over `container.Config.Env` in `getContainers` (lines 159-162).  The index
expressions `parts[0]` and `parts[1]` panic when out of range (`none`). -/
def envOf : List Str → GoMap Str Str → Option (GoMap Str Str)
  | [], env => some env
  | entry :: rest, env =>
    let parts := Split entry "=".toList
    match parts.get? 0, parts.get? 1 with
    | some k, some v => envOf rest (mapStore env k v)
    | _, _ => none

/-- Body of the loop of `getContainers` after a successful inspection (lines
115-164): the normalized container of one raw record, or `none` for a panic. -/
def buildContainer (container : Container) : Option RuntimeContainer :=
  let rrt := splitDockerImage container.Config.Image
  let addresses :=
    withFakeAddress container.NetworkSettings.IPAddress
      (portAddresses container.NetworkSettings.IPAddress container.NetworkSettings.Ports)
  let volumes := volumesOf container.Volumes container.VolumesRW
  match envOf container.Config.Env [] with
  | none => none
  | some env =>
    some
      { ID := container.ID
        Image := { Registry := rrt.1, Repository := rrt.2.1, Tag := rrt.2.2 }
        Name := TrimLeft container.Name "/".toList
        Hostname := container.Config.Hostname
        Gateway := container.NetworkSettings.Gateway
        Addresses := addresses
        Env := env
        Volumes := volumes }

/-- A Go `error` value. -/
abbrev GoError := Str

/-- The client library's `docker.APIContainers`; `getContainers` reads only the ID. -/
structure APIContainers where
  ID : Str
deriving DecidableEq, Repr

/-- The two calls `getContainers` makes on the `docker.Client`: the listing (called
once, with `All` and `Size` false) and the inspection of one container by ID. -/
structure Client where
  ListContainers : Except GoError (List APIContainers)
  InspectContainer : Str → Except GoError Container

/-- The `for` loop of `getContainers` (lines 108-165): a failed inspection is logged
and skipped, a successful one appends the normalized container. -/
def getContainersLoop (client : Client) :
    List APIContainers → List RuntimeContainer → Option (List RuntimeContainer)
  | [], containers => some containers
  | apiContainer :: rest, containers =>
    match client.InspectContainer apiContainer.ID with
    | .error _ => getContainersLoop client rest containers
    | .ok container =>
      match buildContainer container with
      | none => none
      | some runtimeContainer => getContainersLoop client rest (containers ++ [runtimeContainer])

/-- Source function `getContainers`: `none` is a panic, `some (.error e)` the return
`(nil, err)` and `some (.ok cs)` the return `(containers, nil)`. -/
def getContainers (client : Client) : Option (Except GoError (List RuntimeContainer)) :=
  match client.ListContainers with
  | .error err => some (.error err)
  | .ok apiContainers =>
    match getContainersLoop client apiContainers [] with
    | none => none
    | some containers => some (.ok containers)

/-! ## template.go: grouping -/

/-- A Go `interface{}` value as `groupBy` sees it: `nil`, a string, or a value of
any other dynamic type. -/
inductive Value where
  | nil
  | str (s : Str)
  | other
deriving DecidableEq, Repr

/-- Source function `groupBy`.  `deepGet` (reflect.go) is not among the sources and
is a parameter.  The type assertion `value.(string)` panics (`none`) on a value
that is neither nil nor a string. -/
def groupBy (deepGet : RuntimeContainer → Str → Value) :
    List RuntimeContainer → Str → GoMap Str (List RuntimeContainer) →
      Option (GoMap Str (List RuntimeContainer))
  | [], _, groups => some groups
  | v :: entries, key, groups =>
    match deepGet v key with
    | .nil => groupBy deepGet entries key groups
    | .str s =>
      groupBy deepGet entries key (mapStore groups s ((mapLookup groups s).getD [] ++ [v]))
    | .other => none

/-- Modelled from the spec: `deepGet` (reflect.go) is not among the sources.  The
value at a dotted path into the container record: the four string fields, an
environment variable under `Env.` (a name without a dot), the record itself for the empty path and the
non-string fields `Image`, `Addresses`, `Env` and `Volumes`; nil for any other path. -/
def deepGet (c : RuntimeContainer) (path : Str) : Value :=
  if path = [] then .other
  else if path = "ID".toList then .str c.ID
  else if path = "Name".toList then .str c.Name
  else if path = "Hostname".toList then .str c.Hostname
  else if path = "Gateway".toList then .str c.Gateway
  else if path = "Image".toList ∨ path = "Addresses".toList ∨ path = "Env".toList
      ∨ path = "Volumes".toList then .other
  else if "Env.".toList.isPrefixOf path ∧ '.' ∉ path.drop 4 then
    match mapLookup c.Env (path.drop 4) with
    | some v => .str v
    | none => .nil
  else .nil

/-! ## template.go: generateFile -/

/-- Modelled from the spec: the declaration of `Config` (docker-gen.go) is not among
the sources; these are the fields `generateFile` reads. -/
structure Config where
  Template : Str
  Dest : Str
  OnlyExposed : Bool
  OnlyPublished : Bool
deriving DecidableEq, Repr

/-- Modelled from the spec: the method `PublishedAddresses` (docker-gen.go) is not
among the sources; the addresses with a published host port. -/
def PublishedAddresses (c : RuntimeContainer) : List Address :=
  c.Addresses.filter (fun a => decide (a.HostPort ≠ []))

/-- Lines 263-278 of `generateFile`: the filter on the collection. -/
def filterContainers (config : Config) (containers : List RuntimeContainer) :
    List RuntimeContainer :=
  if config.OnlyPublished then
    containers.filter (fun c => decide (0 < (PublishedAddresses c).length))
  else if config.OnlyExposed then
    containers.filter (fun c => decide (0 < c.Addresses.length))
  else containers

/-- One file: its bytes, permission mode, owner and group. -/
structure File where
  contents : Str
  mode : Nat
  uid : Nat
  gid : Nat
deriving DecidableEq, Repr

/-- The file system: the file at each path, if any. -/
abbrev FS := Str → Option File

/-- What one execution of a template does: the chunks it writes to its writer, in
order, and the error that stops it, if any (of the template or of a write). -/
structure Rendering where
  chunks : List Str
  err : Option GoError

/-- A parsed template bound to the function library: a deterministic function of
the collection it is executed on. -/
abbrev Template := List RuntimeContainer → Rendering

/-- The operating system as one pass of `generateFile` meets it: the identity of
the process, `filepath.Dir`, the path `ioutil.TempFile` creates (`none` when it
fails) and whether `Chmod`, `Chown`, `ReadFile` and `Rename` succeed. -/
structure Sys where
  uid : Nat
  gid : Nat
  Dir : Str → Str
  tempFile : Option Str
  chmodOk : Bool
  chownOk : Bool
  readOk : Bool
  renameOk : Bool

/-- The steps of `generateFile` that act on the file system or on standard output. -/
inductive Step where
  | createTemp (dir pfx tmp : Str)
  | write (path chunk : Str)
  | stdout (chunk : Str)
  | chmod (path : Str) (mode : Nat)
  | chown (path : Str) (uid gid : Nat)
  | rename (src dst : Str)
  | remove (path : Str)
deriving DecidableEq, Repr

/-- The file system with the entry of `p` replaced. -/
def FS.put (fs : FS) (p : Str) (f : Option File) : FS := fun q => if q = p then f else fs q

/-- Effect of one step on the file system.  `createTemp` makes a new empty file of
mode 0600 owned by the process; `write` appends to the file; `rename` moves the
file over the target; `remove` of a missing path fails and changes nothing. -/
def applyStep (sys : Sys) (fs : FS) : Step → FS
  | .createTemp _ _ tmp => fs.put tmp (some { contents := [], mode := 0o600, uid := sys.uid, gid := sys.gid })
  | .write p chunk => fs.put p ((fs p).map (fun f => { f with contents := f.contents ++ chunk }))
  | .stdout _ => fs
  | .chmod p m => fs.put p ((fs p).map (fun f => { f with mode := m }))
  | .chown p u g => fs.put p ((fs p).map (fun f => { f with uid := u, gid := g }))
  | .rename src dst => if src = dst then fs else (fs.put dst (fs src)).put src none
  | .remove p => fs.put p none

/-- The file system after a sequence of steps. -/
def applySteps (sys : Sys) (fs : FS) (steps : List Step) : FS := steps.foldl (applyStep sys) fs

/-- How a pass ends: `generateFile` returns its boolean, or `log.Fatalf` ends the
process (deferred calls do not run). -/
inductive Exit where
  | returned (changed : Bool)
  | fatal
deriving DecidableEq, Repr

/-- One pass of `generateFile`: its steps, in order, and how it ends. -/
structure Run where
  steps : List Step
  exit : Exit
deriving DecidableEq, Repr

/-- Lines 282 and 292-294 of `generateFile`: `ioutil.TempFile` creates the temporary
file in the directory of the destination, and the execution of the template writes
its chunks to it (and to the buffer). -/
def tempSteps (sys : Sys) (config : Config) (tmp : Str) (chunks : List Str) : List Step :=
  Step.createTemp (sys.Dir config.Dest) "docker-gen".toList tmp :: chunks.map (Step.write tmp)

/-- Source function `generateFile`, on the file system `fs`.  `parsed` is the result
of the `ParseFiles` call of lines 233-258. -/
def generateFile (sys : Sys) (parsed : Except GoError Template) (config : Config)
    (containers : List RuntimeContainer) (fs : FS) : Run :=
  match parsed with
  | .error _ => { steps := [], exit := .fatal }
  | .ok tmpl =>
    let filteredContainers := filterContainers config containers
    if config.Dest ≠ [] then
      match sys.tempFile with
      | none => { steps := [], exit := .fatal }
      | some tmp =>
        let rendering := tmpl filteredContainers
        let s1 := tempSteps sys config tmp rendering.chunks
        match rendering.err with
        | some _ => { steps := s1, exit := .fatal }
        | none =>
          let buf := rendering.chunks.flatten
          match applySteps sys fs s1 config.Dest with
          | some fi =>
            if !sys.chmodOk then { steps := s1, exit := .fatal }
            else
              let s2 := s1 ++ [Step.chmod tmp fi.mode]
              if !sys.chownOk then { steps := s2, exit := .fatal }
              else
                let s3 := s2 ++ [Step.chown tmp fi.uid fi.gid]
                if !sys.readOk then { steps := s3, exit := .fatal }
                else
                  let contents := ((applySteps sys fs s3 config.Dest).map (fun f => f.contents)).getD []
                  if contents ≠ buf then
                    if !sys.renameOk then { steps := s3, exit := .fatal }
                    else
                      { steps := s3 ++ [Step.rename tmp config.Dest, Step.remove tmp]
                        exit := .returned true }
                  else { steps := s3 ++ [Step.remove tmp], exit := .returned false }
          | none =>
            if ([] : Str) ≠ buf then
              if !sys.renameOk then { steps := s1, exit := .fatal }
              else
                { steps := s1 ++ [Step.rename tmp config.Dest, Step.remove tmp]
                  exit := .returned true }
            else { steps := s1 ++ [Step.remove tmp], exit := .returned false }
    else
      let rendering := tmpl filteredContainers
      match rendering.err with
      | some _ => { steps := rendering.chunks.map Step.stdout, exit := .fatal }
      | none => { steps := rendering.chunks.map Step.stdout, exit := .returned true }

/-! ## template.go: helper functions -/

/-- Inner loop of `groupByMulti` (lines 37-39): the container is appended to the
group of every item, in the order of the items. -/
def groupByMultiItems (v : RuntimeContainer) :
    List Str → GoMap Str (List RuntimeContainer) → GoMap Str (List RuntimeContainer)
  | [], groups => groups
  | item :: items, groups =>
    groupByMultiItems v items (mapStore groups item ((mapLookup groups item).getD [] ++ [v]))

/-- Source function `groupByMulti`.  `deepGet` (reflect.go) is not among the sources
and is a parameter.  The type assertion `value.(string)` panics (`none`) on a value
that is neither nil nor a string. -/
def groupByMulti (deepGet : RuntimeContainer → Str → Value) :
    List RuntimeContainer → Str → Str → GoMap Str (List RuntimeContainer) →
      Option (GoMap Str (List RuntimeContainer))
  | [], _, _, groups => some groups
  | v :: entries, key, sep, groups =>
    match deepGet v key with
    | .nil => groupByMulti deepGet entries key sep groups
    | .str s =>
      groupByMulti deepGet entries key sep (groupByMultiItems v (Split s sep) groups)
    | .other => none

/-- Source function `arrayClosest`: the loop keeps the first of the longest members
of `values` that occur in `input`; `best` starts as the empty string. -/
def arrayClosest (values : List Str) (input : Str) : Str :=
  values.foldl
    (fun best v => if Contains input v && decide (best.length < v.length) then v else best)
    []

/-- A Go `interface{}` value with its content: nil, a string, or a value of another
dynamic type (told apart by a number). -/
inductive Any where
  | nil
  | str (s : Str)
  | other (n : Nat)
deriving DecidableEq, Repr

/-- Loop of `dict` (lines 109-115) on the arguments from the index `i` on, two at a
time: the key must be a string, the value is the argument after it.  The index
expression `values[i+1]` panics (`none`) when out of range. -/
def dictLoop : List Any → GoMap Str Any → Option (Except Str (GoMap Str Any))
  | [], d => some (.ok d)
  | .str key :: value :: rest, d => dictLoop rest (mapStore d key value)
  | .str _ :: [], _ => none
  | _ :: _, _ => some (.error "dict keys must be strings".toList)

/-- Source function `dict`: `none` is a panic, `some (.error e)` the return
`(nil, err)` and `some (.ok d)` the return `(dict, nil)`. -/
def dict (values : List Any) : Option (Except Str (GoMap Str Any)) :=
  if values.length % 2 ≠ 0 then some (.error "invalid dict call".toList)
  else dictLoop values []

/-- The input of `arrayFirst` and `arrayLast` as `reflect` sees it: the nil
interface, a sequence (slice or array) with its elements, or a value of a kind
without a length. -/
inductive SeqInput (α : Type) where
  | nil
  | seq (xs : List α)
  | notSeq
deriving DecidableEq, Repr

/-- The panics of `arrayFirst` and `arrayLast`. -/
inductive ReflectPanic where
  | indexOutOfRange
  | lenOfNonSequence
deriving DecidableEq, Repr

/-- Source function `arrayFirst`; the result `none` is the nil interface. -/
def arrayFirst {α : Type} : SeqInput α → Except ReflectPanic (Option α)
  | .nil => .ok none
  | .notSeq => .error .lenOfNonSequence
  | .seq xs =>
    if xs.length = 0 then .ok none
    else
      match xs.get? 0 with
      | some x => .ok (some x)
      | none => .error .indexOutOfRange

/-- Source function `arrayLast`: `reflect.ValueOf(nil)` has no length, and
`Index(Len() - 1)` is out of range on an empty sequence. -/
def arrayLast {α : Type} : SeqInput α → Except ReflectPanic (Option α)
  | .nil => .error .lenOfNonSequence
  | .notSeq => .error .lenOfNonSequence
  | .seq xs =>
    let i : Int := (xs.length : Int) - 1
    if i < 0 then .error .indexOutOfRange
    else
      match xs.get? i.toNat with
      | some x => .ok (some x)
      | none => .error .indexOutOfRange

/-- Go slice expression `s[:hi]` with its bounds check: a panic (`none`) unless
`0 ≤ hi ≤ len(s)`. -/
def sliceTo? (s : Str) (hi : Int) : Option Str :=
  if 0 ≤ hi ∧ hi ≤ (s.length : Int) then some (s.take hi.toNat) else none

/-- Go slice expression `s[lo:]` with its bounds check: a panic (`none`) unless
`0 ≤ lo ≤ len(s)`. -/
def sliceFrom? (s : Str) (lo : Int) : Option Str :=
  if 0 ≤ lo ∧ lo ≤ (s.length : Int) then some (s.drop lo.toNat) else none

/-- Source function `stringHead`; `none` is a panic. -/
def stringHead (s : Str) (length : Int) : Option Str :=
  if (s.length : Int) ≤ length then some s else sliceTo? s length

/-- Source function `stringTail`; `none` is a panic. -/
def stringTail (s : Str) (length : Int) : Option Str :=
  if (s.length : Int) ≤ length then some [] else sliceFrom? s ((s.length : Int) - length)

/-- Go `strings.HasPrefix(s, pre)`. -/
def HasPrefix (s pre : Str) : Bool := pre.isPrefixOf s

/-- Go `strings.TrimPrefix(s, pre)`: `s` without the leading `pre`, if it has it. -/
def TrimPrefix (s pre : Str) : Str := if HasPrefix s pre then s.drop pre.length else s

/-- Go `strings.HasSuffix(s, suf)`. -/
def HasSuffix (s suf : Str) : Bool := suf.isSuffixOf s

/-- Go `strings.TrimSuffix(s, suf)`: `s` without the trailing `suf`, if it has it. -/
def TrimSuffix (s suf : Str) : Str :=
  if HasSuffix s suf then s.take (s.length - suf.length) else s

/-- The two calls of `encoding/json` that `marshalJsonInternal` makes: what
`Encoder.Encode` writes to its buffer for a value, or its error; and what
`json.Indent` writes to its output buffer for a source, a prefix and an indent, or
its error. -/
structure JsonLib (α : Type) where
  Encode : α → Except GoError Str
  Indent : Str → Str → Str → Except GoError Str

/-- Source function `marshalJsonInternal`, with its two results: the text and the
error (`none` is a nil error).  On an error `json.Indent` leaves its buffer empty. -/
def marshalJsonInternal {α : Type} (lib : JsonLib α) (input : α) (prettify : Bool) :
    Str × Option GoError :=
  match lib.Encode input with
  | .error err => ([], some err)
  | .ok buf =>
    if prettify then
      match lib.Indent buf [] "    ".toList with
      | .ok out => (out, none)
      | .error err => ([], some err)
    else (TrimSuffix buf "\n".toList, none)

/-- Source function `marshalJson` (template function `json`). -/
def marshalJson {α : Type} (lib : JsonLib α) (input : α) : Str × Option GoError :=
  marshalJsonInternal lib input false

/-- Source function `marshalJsonPretty` (template function `jsonPretty`). -/
def marshalJsonPretty {α : Type} (lib : JsonLib α) (input : α) : Str × Option GoError :=
  marshalJsonInternal lib input true

/-! ## docker_client.go: parseHost -/

/-- Go `unicode.IsSpace`: the white space characters (a `Str` element is read as one
character here; for ASCII that is one byte). -/
def isSpace (c : Char) : Bool :=
  decide (c ∈ ['\t', '\n', '\x0b', '\x0c', '\r', ' ', '\u0085', '\u00a0', '\u1680', '\u2028',
    '\u2029', '\u202f', '\u205f', '\u3000'])
    || (decide ('\u2000' ≤ c) && decide (c ≤ '\u200a'))

/-- Go `strings.TrimRightFunc(s, unicode.IsSpace)`: `s` without its trailing white
space. -/
def trimRightSpace (s : Str) : Str := (s.reverse.dropWhile isSpace).reverse

/-- Go `strings.TrimSpace(s)`: `s` without its leading and trailing white space. -/
def TrimSpace (s : Str) : Str := trimRightSpace (s.dropWhile isSpace)

/-- The digits of a decimal number, most significant first, added to `acc`; `none`
when a character is not a digit. -/
def parseDigits : Str → Nat → Option Nat
  | [], acc => some acc
  | c :: cs, acc =>
    if '0' ≤ c ∧ c ≤ '9' then parseDigits cs (acc * 10 + (c.toNat - '0'.toNat)) else none

/-- Go `strconv.Atoi(s)` for a 64-bit `int`: an optional sign and at least one
decimal digit, within the range of `int`; `none` is an error. -/
def Atoi (s : Str) : Option Int :=
  match s with
  | [] => none
  | '+' :: ds =>
    if ds = [] then none
    else (parseDigits ds 0).bind (fun n => if n < 2 ^ 63 then some (n : Int) else none)
  | '-' :: ds =>
    if ds = [] then none
    else (parseDigits ds 0).bind (fun n => if n ≤ 2 ^ 63 then some (-(n : Int)) else none)
  | ds => (parseDigits ds 0).bind (fun n => if n < 2 ^ 63 then some (n : Int) else none)

/-- Go `fmt.Sprintf("%d", n)`. -/
def formatInt (n : Int) : Str :=
  if n < 0 then '-' :: Nat.toDigits 10 n.natAbs else Nat.toDigits 10 n.toNat

/-- Lines 48-74 of `parseHost`: the host and the port of the address that is left
after the scheme, and the result. -/
def parseHostAddr (proto addr : Str) : Except Str (Str × Str) :=
  if proto ≠ "unix".toList ∧ Contains addr ":".toList then
    let hostParts := Split addr ":".toList
    if hostParts.length ≠ 2 then .error ("Invalid bind address format: ".toList ++ addr)
    else
      let host := if hostParts.getD 0 [] ≠ [] then hostParts.getD 0 [] else "127.0.0.1".toList
      match Atoi (hostParts.getD 1 []) with
      | some p =>
        if p ≠ 0 then
          if proto = "unix".toList then .ok (proto, host)
          else .ok (proto, host ++ ":".toList ++ formatInt p)
        else .error ("Invalid bind address format: ".toList ++ addr)
      | none => .error ("Invalid bind address format: ".toList ++ addr)
  else if proto = "tcp".toList ∧ ¬ Contains addr ":".toList then
    .error ("Invalid bind address format: ".toList ++ addr)
  else
    if proto = "unix".toList then .ok (proto, addr)
    else .ok (proto, addr ++ ":".toList ++ formatInt 0)

/-- Source function `parseHost`: `.error` is the returned error, `.ok` the protocol
and the address. -/
def parseHost (addr : Str) : Except Str (Str × Str) :=
  let addr := TrimSpace addr
  if addr = "tcp://".toList then .error ("Invalid bind address format: ".toList ++ addr)
  else if HasPrefix addr "unix://".toList then
    let addr := TrimPrefix addr "unix://".toList
    parseHostAddr "unix".toList (if addr = [] then "/var/run/docker.sock".toList else addr)
  else if HasPrefix addr "tcp://".toList then
    parseHostAddr "tcp".toList (TrimPrefix addr "tcp://".toList)
  else if HasPrefix addr "fd://".toList then .ok ("fd".toList, addr)
  else if addr = [] then parseHostAddr "unix".toList "/var/run/docker.sock".toList
  else if Contains addr "://".toList then
    .error ("Invalid bind address protocol: ".toList ++ addr)
  else parseHostAddr "tcp".toList addr

/-! ## Reference definitions and sample inputs -/

/-- The wording of the specification for `Name`: the raw name without one leading
`/`, when it has one. -/
def trimOneLeadingSlash (s : Str) : Str :=
  match s with
  | '/' :: rest => rest
  | _ => s

/-- The raw records of the listed containers whose inspection succeeds, in listing
order. -/
def inspected (client : Client) (apiContainers : List APIContainers) : List Container :=
  apiContainers.filterMap (fun a =>
    match client.InspectContainer a.ID with
    | .ok container => some container
    | .error _ => none)

/-- Whether a call of the client returned no error. -/
def succeeded {α : Type} : Except GoError α → Bool
  | .ok _ => true
  | .error _ => false

/-- A raw record with the given name and environment, one declared port and no
volumes. -/
def sampleRecord (name : Str) (env : List Str) : Container :=
  { ID := "c1".toList
    Name := name
    Config := { Hostname := "web".toList, Image := "reg.io/app:1.0".toList, Env := env }
    NetworkSettings :=
      { IPAddress := "172.17.0.2".toList, Gateway := "172.17.0.1".toList
        Ports := [("80/tcp".toList, [{ HostIp := "0.0.0.0".toList, HostPort := "8080".toList }])] }
    Volumes := []
    VolumesRW := [] }

/-- A raw record that declares no ports. -/
def sampleRecordNoPorts : Container :=
  { sampleRecord "/db".toList ["A=b".toList] with
    NetworkSettings := { IPAddress := "172.17.0.3".toList, Gateway := [], Ports := [] } }

/-- A client that lists three containers, the second of which cannot be inspected. -/
def sampleClient : Client :=
  { ListContainers := .ok [{ ID := "c1".toList }, { ID := "gone".toList }, { ID := "c3".toList }]
    InspectContainer := fun id =>
      if id = "gone".toList then .error "no such container".toList
      else .ok { sampleRecord ('/' :: id) ["A=b".toList] with ID := id } }

/-- The normalized container of `sampleRecord name env` when `name` has no leading
slash left and `env` is the map of the entries. -/
def sampleContainer (name : Str) (env : GoMap Str Str) : RuntimeContainer :=
  { ID := "c1".toList
    Addresses := [{ IP := "172.17.0.2".toList, Port := "80".toList, HostPort := "8080".toList,
                    Proto := "tcp".toList }]
    Gateway := "172.17.0.1".toList
    Name := name
    Hostname := "web".toList
    Image := { Registry := "reg.io".toList, Repository := "app".toList, Tag := "1.0".toList }
    Env := env
    Volumes := [] }

/-- The normalized container of `sampleRecordNoPorts`. -/
def sampleContainerNoPorts : RuntimeContainer :=
  { sampleContainer "db".toList [("A".toList, "b".toList)] with
    Addresses := [{ IP := "172.17.0.3".toList, Port := [], HostPort := [], Proto := [] }]
    Gateway := [] }

/-- Whether an `interface{}` value holds a string. -/
def Value.isStr : Value → Bool
  | .str _ => true
  | _ => false

/-- The containers of `entries`, in order, whose value at `key` is the string `k`. -/
def withValue (deepGet : RuntimeContainer → Str → Value) (entries : List RuntimeContainer)
    (key k : Str) : List RuntimeContainer :=
  entries.filter (fun v => decide (deepGet v key = .str k))

/-- A container with the given ID and the environment variable `VIRTUAL_HOST`, as in
`TestGroupByExistingKey`. -/
def testContainer (id host : Str) : RuntimeContainer :=
  { ID := id, Addresses := [], Gateway := [], Name := [], Hostname := []
    Image := { Registry := [], Repository := [], Tag := [] }
    Env := [("VIRTUAL_HOST".toList, host)], Volumes := [] }

/-- The three containers of `TestGroupByExistingKey`. -/
def testContainers : List RuntimeContainer :=
  [testContainer "1".toList "demo1.localhost".toList,
   testContainer "2".toList "demo1.localhost".toList,
   testContainer "3".toList "demo2.localhost".toList]

/-- Whether a step acts on the entry of the path `p` of the file system. -/
def Step.touches (p : Str) : Step → Bool
  | .createTemp _ _ tmp => decide (tmp = p)
  | .write q _ => decide (q = p)
  | .stdout _ => false
  | .chmod q _ => decide (q = p)
  | .chown q _ _ => decide (q = p)
  | .rename src dst => decide (src = p) || decide (dst = p)
  | .remove q => decide (q = p)

/-- The chunk of a write to a file. -/
def Step.chunk? : Step → Option Str
  | .write _ chunk => some chunk
  | _ => none

/-- The bytes one pass renders: the output of the template on the filtered
collection. -/
def rendered (tmpl : Template) (config : Config) (containers : List RuntimeContainer) : Str :=
  (tmpl (filterContainers config containers)).chunks.flatten

/-- The baseline of the comparison: the bytes of the file at the destination, empty
when there is none. -/
def baseline (fs : FS) (config : Config) : Str :=
  ((fs config.Dest).map (fun f => f.contents)).getD []

/-- The file system after one pass of `generateFile`. -/
def fsAfter (sys : Sys) (parsed : Except GoError Template) (config : Config)
    (containers : List RuntimeContainer) (fs : FS) : FS :=
  applySteps sys fs (generateFile sys parsed config containers fs).steps

/-- An operating system in which every call succeeds and the temporary file is
`/etc/docker-gen042`. -/
def sampleSys : Sys :=
  { uid := 0, gid := 0, Dir := fun _ => "/etc".toList
    tempFile := some "/etc/docker-gen042".toList
    chmodOk := true, chownOk := true, readOk := true, renameOk := true }

/-- A template that writes the IDs of the containers, one chunk each, after a header. -/
def sampleTemplate : Template := fun cs =>
  { chunks := "# hosts\n".toList :: cs.map (fun c => c.ID), err := none }

/-- A configuration with the destination `/etc/hosts.conf` and no filter. -/
def sampleConfig : Config :=
  { Template := "/etc/hosts.tmpl".toList, Dest := "/etc/hosts.conf".toList
    OnlyExposed := false, OnlyPublished := false }

/-- A file system whose only file is `/etc/hosts.conf`, with mode 0644, owner 33 and
group 34. -/
def sampleFS : FS := fun p =>
  if p = "/etc/hosts.conf".toList then
    some { contents := "old".toList, mode := 0o644, uid := 33, gid := 34 }
  else none

/-- The steps that copy the mode and the owner of the file at the destination, if
there is one, onto the temporary file. -/
def permSteps (tmp : Str) : Option File → List Step
  | some fi => [Step.chmod tmp fi.mode, Step.chown tmp fi.uid fi.gid]
  | none => []

/-- The file the rename puts at the destination: the rendered bytes, with the mode
and the owner of the file that was there, or those of a new temporary file. -/
def renamedFile (sys : Sys) (bytes : Str) : Option File → File
  | some fi => { contents := bytes, mode := fi.mode, uid := fi.uid, gid := fi.gid }
  | none => { contents := bytes, mode := 0o600, uid := sys.uid, gid := sys.gid }

/-- The invariant of the loop of `groupBy` after the containers `seen`. -/
structure Grouped (deepGet : RuntimeContainer → Str → Value) (key : Str)
    (seen : List RuntimeContainer) (g : GoMap Str (List RuntimeContainer)) : Prop where
  group : ∀ k, (mapLookup g k).getD [] = withValue deepGet seen key k
  nonempty : ∀ kv ∈ g, kv.2 ≠ []
  sizes : (g.map (fun kv => kv.2.length)).sum
    = (seen.filter (fun v => (deepGet v key).isStr)).length
  keys : (g.map Prod.fst).Nodup

/-- The items of a container for `groupByMulti`: the parts of its string value at
the key path, cut at the separator; none when the value is not a string. -/
def itemsOf (deepGet : RuntimeContainer → Str → Value) (key sep : Str)
    (v : RuntimeContainer) : List Str :=
  match deepGet v key with
  | .str s => Split s sep
  | _ => []

/-- The containers of `entries`, in order, each once for every item of it that is
`k`. -/
def multiGroup (deepGet : RuntimeContainer → Str → Value) (entries : List RuntimeContainer)
    (key sep k : Str) : List RuntimeContainer :=
  entries.flatMap (fun v =>
    ((itemsOf deepGet key sep v).filter (fun item => decide (item = k))).map (fun _ => v))

/-- The invariant of the outer loop of `groupByMulti` after the containers `seen`. -/
structure GroupedMulti (deepGet : RuntimeContainer → Str → Value) (key sep : Str)
    (seen : List RuntimeContainer) (g : GoMap Str (List RuntimeContainer)) : Prop where
  group : ∀ k, (mapLookup g k).getD [] = multiGroup deepGet seen key sep k
  nonempty : ∀ kv ∈ g, kv.2 ≠ []
  keys : (g.map Prod.fst).Nodup

/-- Two containers for `groupByMulti`: the first with the hosts `a`, `b`, the second
with the host `b`. -/
def multiContainers : List RuntimeContainer :=
  [testContainer "1".toList "a,b".toList, testContainer "2".toList "b".toList]

/-- The invariant of the loop of `arrayClosest` after the values `seen`: `best` is
empty and no non-empty value seen occurs in `input`, or `best` is the first of the
longest values seen that occur in `input`. -/
def ClosestInv (input : Str) (seen : List Str) (best : Str) : Prop :=
  (best = [] ∧ ∀ v ∈ seen, Contains input v = true → v = [])
    ∨ (best ≠ [] ∧ Contains input best = true
      ∧ (∀ v ∈ seen, Contains input v = true → v.length ≤ best.length)
      ∧ ∃ p1 p2, seen = p1 ++ best :: p2
          ∧ ∀ v ∈ p1, Contains input v = true → v.length < best.length)

/-- The argument at the even position `i` of `values` is the string `k`, the
argument after it is `a`, and `k` is at no later even position: `a` is the value
that follows the last occurrence of the key `k`. -/
def LastAt (values : List Any) (k : Str) (a : Any) : Prop :=
  ∃ i, i % 2 = 0 ∧ values[i]? = some (.str k) ∧ values[i + 1]? = some a
    ∧ ∀ j, i < j → j % 2 = 0 → values[j]? ≠ some (.str k)

/-- The invariant of the loop of `dict` after the arguments `seen`. -/
structure DictInv (seen : List Any) (d : GoMap Str Any) : Prop where
  keys : ∀ k, k ∈ d.map Prod.fst ↔ ∃ i, i % 2 = 0 ∧ seen[i]? = some (.str k)
  nodup : (d.map Prod.fst).Nodup
  value : ∀ k a, mapLookup d k = some a ↔ LastAt seen k a

/-- The documented behaviour of `Encoder.Encode`: it writes the JSON text of the
value, which has no newline in it, followed by a newline character. -/
def EncodeEndsLine {α : Type} (lib : JsonLib α) : Prop :=
  ∀ v buf, lib.Encode v = .ok buf → ∃ body, buf = body ++ ['\n'] ∧ '\n' ∉ body

/-- The documented behaviour of `json.Indent`: trailing space characters of the
source are copied to the output, so a source that ends in a newline gives an output
that ends in a newline. -/
def IndentKeepsLine {α : Type} (lib : JsonLib α) : Prop :=
  ∀ src pfx ind out, lib.Indent src pfx ind = .ok out →
    src.getLast? = some '\n' → out.getLast? = some '\n'

/-- The library on numbers: the JSON text of a number is its decimal digits, and
indenting a number changes nothing. -/
def numberJson : JsonLib Nat :=
  { Encode := fun n => .ok ((Nat.toDigits 10 n) ++ ['\n'])
    Indent := fun src _ _ => .ok src }

/-- The part of an image string after its first `/`, or all of it when it has no
`/`. -/
def afterFirstSlash (img : Str) : Str :=
  if '/' ∈ img then (img.dropWhile (fun c => decide (c ≠ '/'))).drop 1 else img

/-- The image string put back together from the parts `splitDockerImage` returns:
the rest is `repository:tag` when the part after the first `/` contains `:` and the
repository otherwise, and the whole is `registry/rest` when the image string
contains `/` and the rest otherwise. -/
def reassemble (img : Str) : Str :=
  let parts := splitDockerImage img
  let rest :=
    if ':' ∈ afterFirstSlash img then parts.2.1 ++ ":".toList ++ parts.2.2 else parts.2.1
  if '/' ∈ img then parts.1 ++ "/".toList ++ rest else rest

/-- The sample configuration with the filter on containers that have an address. -/
def exposedConfig : Config := { sampleConfig with OnlyExposed := true }

/-! ## Lemmas on strings -/

theorem indexFrom_single_of_not_mem (c : Char) (s : Str) (i : Nat) (h : c ∉ s) :
    indexFrom [c] s i = -1 := by
  induction s generalizing i with
  | nil => simp [indexFrom]
  | cons x xs ih =>
    have hx : c ≠ x := fun e => h (by simp [e])
    have hxs : c ∉ xs := fun e => h (by simp [e])
    simp [indexFrom, List.isPrefixOf, hx, ih _ hxs]

theorem indexFrom_single_append (c : Char) (r t : Str) (i : Nat) (h : c ∉ r) :
    indexFrom [c] (r ++ c :: t) i = ((i + r.length : Nat) : Int) := by
  induction r generalizing i with
  | nil => simp [indexFrom, List.isPrefixOf]
  | cons x xs ih =>
    have hx : c ≠ x := fun e => h (by simp [e])
    have hxs : c ∉ xs := fun e => h (by simp [e])
    have hp : List.isPrefixOf [c] (x :: (xs ++ c :: t)) = false := by
      simp [List.isPrefixOf, hx]
    show indexFrom [c] (x :: (xs ++ c :: t)) i = _
    rw [indexFrom, hp, if_neg (by simp), ih _ hxs, List.length_cons]
    congr 1
    omega

theorem indexFrom_bounds (sub s : Str) (i : Nat) :
    indexFrom sub s i = -1
      ∨ ((i : Int) ≤ indexFrom sub s i
        ∧ indexFrom sub s i + sub.length ≤ (i : Int) + s.length) := by
  induction s generalizing i with
  | nil =>
    simp only [indexFrom]
    split
    · rename_i h
      right
      simp [h]
    · left; rfl
  | cons x xs ih =>
    simp only [indexFrom]
    split
    · rename_i h
      right
      have hl := (List.isPrefixOf_iff_prefix.1 h).length_le
      refine ⟨le_refl _, ?_⟩
      omega
    · rcases ih (i + 1) with h | ⟨h1, h2⟩
      · left; exact h
      · right
        simp only [List.length_cons]
        push_cast at h1 h2 ⊢
        omega

/-- Where `Index` finds the substring, the slices cut at it are within the string. -/
theorem Index_bounds (s sub : Str) :
    Index s sub = -1 ∨ (0 ≤ Index s sub ∧ Index s sub + sub.length ≤ s.length) := by
  simpa [Index] using indexFrom_bounds sub s 0

theorem Index_single_of_not_mem (c : Char) (s : Str) (h : c ∉ s) : Index s [c] = -1 :=
  indexFrom_single_of_not_mem c s 0 h

theorem Index_single_append (c : Char) (r t : Str) (h : c ∉ r) :
    Index (r ++ c :: t) [c] = (r.length : Int) := by
  simpa [Index] using indexFrom_single_append c r t 0 h

theorem Contains_single (c : Char) (s : Str) : Contains s [c] = true ↔ c ∈ s := by
  constructor
  · intro h
    by_contra hc
    simp [Contains, Index_single_of_not_mem c s hc] at h
  · intro h
    obtain ⟨r, t, rfl, hr⟩ := List.eq_append_cons_of_mem h
    simp [Contains, Index_single_append c r t hr]

/-- A string that contains `c` is cut by `Index` at its first `c`. -/
theorem Index_single_of_mem (c : Char) (s : Str) (h : c ∈ s) :
    ∃ r t, s = r ++ c :: t ∧ c ∉ r ∧ Index s [c] = (r.length : Int) := by
  obtain ⟨r, t, rfl, hr⟩ := List.eq_append_cons_of_mem h
  exact ⟨r, t, rfl, hr, Index_single_append c r t hr⟩

theorem slice_zero_append (r t : Str) : slice (r ++ t) 0 (r.length : Int) = r := by
  simp [slice]

theorem sliceFrom_append (r : Str) (c : Char) (t : Str) :
    sliceFrom (r ++ c :: t) ((r.length : Int) + 1) = t := by
  have : ((r.length : Int) + 1).toNat = r.length + 1 := by omega
  simp [sliceFrom, this]

/-- The image string `r/rest` with no `/` in `r` is cut into `r` and `rest`. -/
theorem splitDockerImage_registry (r rest : Str) (h : '/' ∉ r) :
    splitDockerImage (r ++ '/' :: rest)
      = (if ':' ∈ rest then
          (r, slice rest 0 (Index rest [':']), sliceFrom rest (Index rest [':'] + 1))
        else (r, rest, [])) := by
  have hc : Contains (r ++ '/' :: rest) ['/'] = true := (Contains_single _ _).2 (by simp)
  have hi := Index_single_append '/' r rest h
  have e1 : "/".toList = ['/'] := rfl
  have e2 : ":".toList = [':'] := rfl
  simp only [splitDockerImage, e1, e2, hc, if_true, hi, slice_zero_append, sliceFrom_append]
  by_cases hm : ':' ∈ rest
  · simp [hm, (Contains_single ':' rest).2 hm]
  · have : Contains rest [':'] = false := by
      rw [← Bool.not_eq_true, Contains_single]; exact hm
    simp [hm, this]

/-- An image string with no `/` has no registry. -/
theorem splitDockerImage_no_slash (img : Str) (h : '/' ∉ img) :
    splitDockerImage img
      = (if ':' ∈ img then
          ([], slice img 0 (Index img [':']), sliceFrom img (Index img [':'] + 1))
        else ([], img, [])) := by
  have hc : Contains img ['/'] = false := by
    rw [← Bool.not_eq_true, Contains_single]; exact h
  have e1 : "/".toList = ['/'] := rfl
  have e2 : ":".toList = [':'] := rfl
  simp only [splitDockerImage, e1, e2, hc]
  by_cases hm : ':' ∈ img
  · simp [hm, (Contains_single ':' img).2 hm]
  · have : Contains img [':'] = false := by
      rw [← Bool.not_eq_true, Contains_single]; exact hm
    simp [hm, this]

/-! ## Claims on splitDockerImage -/

/-- C2: for a registry `r` without `/`, a repository `p` without `:` and any tag `t`,
`splitDockerImage` of `r/p:t` is exactly `(r, p, t)`; an image string without `/`
gives an empty registry and an image string without `:` gives an empty tag. -/
theorem splitDockerImage_components :
    (∀ r p t : Str, '/' ∉ r → ':' ∉ p →
      splitDockerImage (r ++ "/".toList ++ p ++ ":".toList ++ t) = (r, p, t))
    ∧ (∀ img : Str, '/' ∉ img → (splitDockerImage img).1 = [])
    ∧ (∀ img : Str, ':' ∉ img → (splitDockerImage img).2.2 = []) := by
  refine ⟨?_, ?_, ?_⟩
  · intro r p t hr hp
    have e : r ++ "/".toList ++ p ++ ":".toList ++ t = r ++ '/' :: (p ++ ':' :: t) := by
      simp
    rw [e, splitDockerImage_registry r _ hr]
    have hm : ':' ∈ p ++ ':' :: t := by simp
    rw [if_pos hm, Index_single_append ':' p t hp, slice_zero_append, sliceFrom_append]
  · intro img h
    rw [splitDockerImage_no_slash img h]
    split <;> rfl
  · intro img h
    by_cases hs : '/' ∈ img
    · obtain ⟨r, t, rfl, hr⟩ := List.eq_append_cons_of_mem hs
      rw [splitDockerImage_registry r t hr]
      have : ':' ∉ t := fun e => h (by simp [e])
      rw [if_neg this]
    · rw [splitDockerImage_no_slash img hs, if_neg h]

/-- Witness of C2 on `reg.io/app:1.0`, `app` and `app/web`. -/
theorem splitDockerImage_components_witness :
    splitDockerImage ("reg.io".toList ++ "/".toList ++ "app".toList ++ ":".toList ++ "1.0".toList)
        = ("reg.io".toList, "app".toList, "1.0".toList)
      ∧ (splitDockerImage "app:1.0".toList).1 = []
      ∧ (splitDockerImage "app/web".toList).2.2 = [] :=
  ⟨splitDockerImage_components.1 _ _ _ (by decide) (by decide),
   splitDockerImage_components.2.1 _ (by decide),
   splitDockerImage_components.2.2 _ (by decide)⟩

/-! ## Lemmas on Split and on the container builder -/

theorem genSplit_of_not_mem (c : Char) (n : Nat) (s : Str) (h : c ∉ s) :
    genSplit [c] n s = [s] := by
  cases n with
  | zero => rfl
  | succ n => simp [genSplit, Index_single_of_not_mem c s h]

theorem genSplit_append (c : Char) (n : Nat) (r t : Str) (h : c ∉ r) :
    genSplit [c] (n + 1) (r ++ c :: t) = r :: genSplit [c] n t := by
  simp only [genSplit, Index_single_append c r t h, List.length_singleton, Nat.cast_one,
    slice_zero_append, sliceFrom_append]
  rw [if_neg (by omega)]

theorem genSplit_ne_nil (sep : Str) (n : Nat) (s : Str) : genSplit sep n s ≠ [] := by
  cases n with
  | zero => simp [genSplit]
  | succ n => simp only [genSplit]; split <;> simp

/-- An entry without the separator is not cut. -/
theorem Split_of_not_mem (c : Char) (s : Str) (h : c ∉ s) : Split s [c] = [s] := by
  simp [Split, genSplit_of_not_mem c _ s h]

/-- An entry is cut at its first separator; the rest is cut further. -/
theorem Split_append (c : Char) (r t : Str) (h : c ∉ r) :
    Split (r ++ c :: t) [c] = r :: genSplit [c] (r.length + t.length) t := by
  have e : (r ++ c :: t).length = (r.length + t.length) + 1 := by simp; omega
  simp only [Split, e, genSplit_append c _ r t h]
  simp

/-- Cutting `k=v` at `=`: the first part is `k`, and the second part is `v` up to
its own first `=`. -/
theorem Split_entry (k v : Str) (hk : '=' ∉ k) :
    ∃ rest, Split (k ++ '=' :: v) ['='] = k :: (v.takeWhile (fun c => decide (c ≠ '='))) :: rest := by
  rw [Split_append '=' k v hk]
  by_cases hv : '=' ∈ v
  · obtain ⟨v1, v2, rfl, h1⟩ := List.eq_append_cons_of_mem hv
    have e : k.length + (v1 ++ '=' :: v2).length = (k.length + v1.length + v2.length) + 1 := by
      simp; omega
    rw [e, genSplit_append '=' _ v1 v2 h1]
    refine ⟨genSplit ['='] (k.length + v1.length + v2.length) v2, ?_⟩
    congr 2
    rw [List.takeWhile_append_of_pos (by
      intro a ha
      have : a ≠ '=' := fun e => h1 (e ▸ ha)
      simpa using this)]
    simp
  · rw [genSplit_of_not_mem '=' _ v hv]
    refine ⟨[], ?_⟩
    congr 2
    symm
    rw [List.takeWhile_eq_self_iff]
    intro a ha
    have : a ≠ '=' := fun e => hv (e ▸ ha)
    simpa using this

theorem envOf_cons_entry (k v : Str) (hk : '=' ∉ k) (rest : List Str) (env : GoMap Str Str) :
    envOf ((k ++ '=' :: v) :: rest) env
      = envOf rest (mapStore env k (v.takeWhile (fun c => decide (c ≠ '=')))) := by
  obtain ⟨tl, h⟩ := Split_entry k v hk
  have e : "=".toList = ['='] := rfl
  simp [envOf, e, h]

theorem envOf_cons_malformed (entry : Str) (h : '=' ∉ entry) (rest : List Str)
    (env : GoMap Str Str) : envOf (entry :: rest) env = none := by
  have e : "=".toList = ['='] := rfl
  simp [envOf, e, Split_of_not_mem '=' entry h]

/-- The environment loop ends without a panic exactly when every entry has a `=`. -/
theorem envOf_isSome_iff (entries : List Str) (env : GoMap Str Str) :
    (envOf entries env).isSome ↔ ∀ e ∈ entries, '=' ∈ e := by
  induction entries generalizing env with
  | nil => simp [envOf]
  | cons entry rest ih =>
    by_cases h : '=' ∈ entry
    · obtain ⟨k, v, rfl, hk⟩ := List.eq_append_cons_of_mem h
      rw [envOf_cons_entry k v hk, ih]
      simp
    · rw [envOf_cons_malformed entry h]
      simp [h]

/-- What the builder returns, field by field. -/
theorem buildContainer_eq_some (r : Container) (c : RuntimeContainer)
    (h : buildContainer r = some c) :
    c.ID = r.ID
      ∧ c.Name = TrimLeft r.Name ['/']
      ∧ c.Addresses = withFakeAddress r.NetworkSettings.IPAddress
          (portAddresses r.NetworkSettings.IPAddress r.NetworkSettings.Ports)
      ∧ envOf r.Config.Env [] = some c.Env := by
  unfold buildContainer at h
  cases he : envOf r.Config.Env [] with
  | none => simp [he] at h
  | some env =>
    simp only [he, Option.some.injEq] at h
    subst h
    exact ⟨rfl, rfl, rfl, rfl⟩

/-- The builder returns a container exactly when every environment entry has a `=`. -/
theorem buildContainer_isSome_iff (r : Container) :
    (buildContainer r).isSome ↔ ∀ e ∈ r.Config.Env, '=' ∈ e := by
  rw [← envOf_isSome_iff r.Config.Env []]
  unfold buildContainer
  cases envOf r.Config.Env [] <;> simp

theorem TrimLeft_slash (s : Str) :
    (∃ n, s = List.replicate n '/' ++ TrimLeft s ['/']) ∧ (TrimLeft s ['/']).head? ≠ some '/' := by
  constructor
  · refine ⟨(s.takeWhile (fun c => decide (c ∈ ['/']))).length, ?_⟩
    have h : s.takeWhile (fun c => decide (c ∈ ['/']))
        = List.replicate (s.takeWhile (fun c => decide (c ∈ ['/']))).length '/' := by
      rw [List.eq_replicate_iff]
      refine ⟨rfl, fun b hb => ?_⟩
      have := List.mem_takeWhile_imp hb
      simpa using this
    rw [← h]
    exact (List.takeWhile_append_dropWhile _ s).symm
  · intro h
    have h2 := List.head?_dropWhile_not (fun c => decide (c ∈ ['/'])) s
    unfold TrimLeft at h
    rw [h] at h2
    simp at h2

theorem getContainersLoop_some (client : Client) (apis : List APIContainers)
    (acc cs : List RuntimeContainer) (h : getContainersLoop client apis acc = some cs) :
    ∃ built, cs = acc ++ built
      ∧ built.map some = (inspected client apis).map buildContainer := by
  induction apis generalizing acc with
  | nil =>
    simp only [getContainersLoop, Option.some.injEq] at h
    exact ⟨[], by simp [h], by simp [inspected]⟩
  | cons a rest ih =>
    unfold getContainersLoop at h
    cases hi : client.InspectContainer a.ID with
    | error e =>
      simp only [hi] at h
      obtain ⟨built, h1, h2⟩ := ih acc h
      exact ⟨built, h1, by simp [inspected, hi, h2]⟩
    | ok r =>
      simp only [hi] at h
      cases hb : buildContainer r with
      | none => simp [hb] at h
      | some rc =>
        simp only [hb] at h
        obtain ⟨built, h1, h2⟩ := ih _ h
        refine ⟨rc :: built, by simp [h1], ?_⟩
        simp only [inspected, List.filterMap_cons, hi, List.map_cons, hb] at h2 ⊢
        rw [h2]

theorem getContainersLoop_isSome (client : Client) (apis : List APIContainers)
    (acc : List RuntimeContainer)
    (h : ∀ r ∈ inspected client apis, (buildContainer r).isSome) :
    (getContainersLoop client apis acc).isSome := by
  induction apis generalizing acc with
  | nil => simp [getContainersLoop]
  | cons a rest ih =>
    unfold getContainersLoop
    cases hi : client.InspectContainer a.ID with
    | error e =>
      simp only
      exact ih acc (by simpa [inspected, hi] using h)
    | ok r =>
      simp only
      have hr : (buildContainer r).isSome := h r (by simp [inspected, hi])
      obtain ⟨rc, hb⟩ := Option.isSome_iff_exists.1 hr
      simp only [hb]
      refine ih _ (fun r' hr' => h r' ?_)
      simp only [inspected, List.filterMap_cons, hi, List.mem_cons]
      right
      exact hr'

theorem length_inspected (client : Client) (apis : List APIContainers) :
    (inspected client apis).length
      = (apis.filter (fun a => succeeded (client.InspectContainer a.ID))).length := by
  induction apis with
  | nil => rfl
  | cons a rest ih =>
    cases hi : client.InspectContainer a.ID <;>
      simp [inspected, hi, succeeded, List.filter_cons] at ih ⊢ <;> exact ih

/-! ## Claims on getContainers -/

/-- C1, at the failing input: a record whose only environment entry is `A=b=c`
yields `Env[A] = b`; the text after the second `=` is lost, whereas the whole text
after the first `=` is `b=c`. -/
theorem env_value_cut_at_second_equals :
    (buildContainer (sampleRecord "/web".toList ["A=b=c".toList])).map
        (fun c => mapLookup c.Env "A".toList) = some (some "b".toList)
      ∧ "b".toList ≠ "b=c".toList := by
  decide

/-- C3, as stated, fails: the raw name `//web` gives the Name `web`, while the raw
name without a single leading `/` is `/web`. -/
theorem name_single_slash_counterexample :
    (buildContainer (sampleRecord "//web".toList ["A=b".toList])).map (fun c => c.Name)
        = some "web".toList
      ∧ trimOneLeadingSlash (sampleRecord "//web".toList ["A=b".toList]).Name = "/web".toList := by
  decide

/-- C3, amended: the Name of the normalized container is the raw name without all
of its leading `/`: the raw name is some number of `/` followed by the Name, and the
Name does not begin with `/`.  For a raw name that does not begin with two slashes
this is the raw name without one leading `/` when it has one, unchanged otherwise. -/
theorem name_without_leading_slashes (r : Container) (c : RuntimeContainer)
    (h : buildContainer r = some c) :
    (∃ n, r.Name = List.replicate n '/' ++ c.Name)
      ∧ c.Name.head? ≠ some '/'
      ∧ ((∀ rest, r.Name ≠ '/' :: '/' :: rest) → c.Name = trimOneLeadingSlash r.Name) := by
  obtain ⟨-, hn, -, -⟩ := buildContainer_eq_some r c h
  rw [hn]
  refine ⟨(TrimLeft_slash r.Name).1, (TrimLeft_slash r.Name).2, fun h2 => ?_⟩
  match hr : r.Name with
  | [] => rfl
  | x :: [] =>
    by_cases hx : x = '/'
    · subst hx; rfl
    · simp [TrimLeft, trimOneLeadingSlash, List.dropWhile, hx]
  | x :: y :: rest =>
    by_cases hx : x = '/'
    · subst hx
      have hy : y ≠ '/' := fun e => h2 rest (by rw [hr, e])
      simp [TrimLeft, trimOneLeadingSlash, List.dropWhile, hy]
    · simp [TrimLeft, trimOneLeadingSlash, List.dropWhile, hx]

/-- Witness of the amended C3 on the raw names `/web` and `//web`. -/
theorem name_without_leading_slashes_witness :
    buildContainer (sampleRecord "/web".toList ["A=b".toList])
        = some (sampleContainer "web".toList [("A".toList, "b".toList)])
      ∧ ((∃ n, "/web".toList = List.replicate n '/' ++ "web".toList)
        ∧ "web".toList.head? ≠ some '/'
        ∧ ((∀ rest, "/web".toList ≠ '/' :: '/' :: rest)
            → "web".toList = trimOneLeadingSlash "/web".toList)) :=
  ⟨by decide,
   name_without_leading_slashes (sampleRecord "/web".toList ["A=b".toList])
    (sampleContainer "web".toList [("A".toList, "b".toList)]) (by decide)⟩

/-- C4: the Addresses of every normalized container built by `getContainers` is
non-empty, and for a record that declares no ports it is exactly one address with
the IP of the record and empty Port, Proto and HostPort. -/
theorem addresses_nonempty (r : Container) (c : RuntimeContainer)
    (h : buildContainer r = some c) :
    c.Addresses ≠ []
      ∧ (r.NetworkSettings.Ports = [] →
          c.Addresses = [{ IP := r.NetworkSettings.IPAddress, Port := [], Proto := [],
                           HostPort := [] }]) := by
  obtain ⟨-, -, ha, -⟩ := buildContainer_eq_some r c h
  rw [ha]
  constructor
  · unfold withFakeAddress
    split
    · simp
    · intro h0
      simp_all
  · intro hp
    simp [hp, portAddresses, withFakeAddress]

/-- Witness of C4 on a record with one declared port and on a record with none. -/
theorem addresses_nonempty_witness :
    buildContainer sampleRecordNoPorts = some sampleContainerNoPorts
      ∧ (sampleContainerNoPorts.Addresses ≠ []
        ∧ (sampleRecordNoPorts.NetworkSettings.Ports = [] →
            sampleContainerNoPorts.Addresses
              = [{ IP := sampleRecordNoPorts.NetworkSettings.IPAddress, Port := [], Proto := [],
                   HostPort := [] }])) :=
  ⟨by decide, addresses_nonempty sampleRecordNoPorts sampleContainerNoPorts (by decide)⟩

/-- C9: `getContainers` returns an error exactly when the listing fails.  When the
listing succeeds, what it returns is, in listing order, the normalized container of
each listed container whose inspection succeeds (the others are left out, so the
length is the number of successful inspections); and it does return when every
environment entry of the inspected records has a `=`. -/
theorem getContainers_error_iff_listing_fails (client : Client) :
    ((∃ e, getContainers client = some (.error e)) ↔ ∃ e, client.ListContainers = .error e)
      ∧ (∀ apis, client.ListContainers = .ok apis →
          (∀ cs, getContainers client = some (.ok cs) →
              cs.map some = (inspected client apis).map buildContainer
                ∧ cs.length
                    = (apis.filter (fun a => succeeded (client.InspectContainer a.ID))).length)
            ∧ ((∀ r ∈ inspected client apis, ∀ e ∈ r.Config.Env, '=' ∈ e) →
                ∃ cs, getContainers client = some (.ok cs))) := by
  constructor
  · constructor
    · rintro ⟨e, h⟩
      unfold getContainers at h
      cases hl : client.ListContainers with
      | error e' => exact ⟨e', rfl⟩
      | ok apis =>
        simp only [hl] at h
        cases hg : getContainersLoop client apis [] <;> simp [hg] at h
    · rintro ⟨e, h⟩
      exact ⟨e, by simp [getContainers, h]⟩
  · intro apis hl
    constructor
    · intro cs h
      unfold getContainers at h
      simp only [hl] at h
      cases hg : getContainersLoop client apis [] with
      | none => simp [hg] at h
      | some cs' =>
        simp only [hg, Option.some.injEq, Except.ok.injEq] at h
        subst h
        obtain ⟨built, h1, h2⟩ := getContainersLoop_some client apis [] cs' hg
        simp only [List.nil_append] at h1
        subst h1
        refine ⟨h2, ?_⟩
        rw [← length_inspected]
        simpa using congrArg List.length h2
    · intro hwf
      have hs := getContainersLoop_isSome client apis []
        (fun r hr => (buildContainer_isSome_iff r).2 (hwf r hr))
      obtain ⟨cs, hg⟩ := Option.isSome_iff_exists.1 hs
      exact ⟨cs, by simp [getContainers, hl, hg]⟩

/-- Witness of C9: of three listed containers the second cannot be inspected; the
result holds the first and the third. -/
theorem getContainers_error_iff_listing_fails_witness :
    getContainers sampleClient
        = some (.ok [{ sampleContainer "c1".toList [("A".toList, "b".toList)] with ID := "c1".toList },
                     { sampleContainer "c3".toList [("A".toList, "b".toList)] with ID := "c3".toList }])
      ∧ ([{ sampleContainer "c1".toList [("A".toList, "b".toList)] with ID := "c1".toList },
          { sampleContainer "c3".toList [("A".toList, "b".toList)] with ID := "c3".toList }].map some
            = (inspected sampleClient
                [{ ID := "c1".toList }, { ID := "gone".toList }, { ID := "c3".toList }]).map
                  buildContainer
        ∧ [{ sampleContainer "c1".toList [("A".toList, "b".toList)] with ID := "c1".toList },
           { sampleContainer "c3".toList [("A".toList, "b".toList)] with ID := "c3".toList }].length
            = ([({ ID := "c1".toList } : APIContainers), { ID := "gone".toList },
                { ID := "c3".toList }].filter
                (fun a => succeeded (sampleClient.InspectContainer a.ID))).length) :=
  ⟨by rfl,
   ((getContainers_error_iff_listing_fails sampleClient).2 _ rfl).1 _ (by rfl)⟩

/-! ## Lemmas on maps and on groupBy -/

theorem mapLookup_mapStore {κ α : Type} [DecidableEq κ] (m : GoMap κ α) (k k' : κ) (a : α) :
    mapLookup (mapStore m k a) k' = if k = k' then some a else mapLookup m k' := by
  induction m with
  | nil => simp [mapStore, mapLookup]
  | cons kv m ih =>
    obtain ⟨k0, a0⟩ := kv
    by_cases h0 : k0 = k
    · subst h0
      by_cases h1 : k0 = k' <;> simp [mapStore, mapLookup, h1]
    · by_cases h1 : k = k'
      · subst h1
        simp [mapStore, mapLookup, h0, ih]
      · by_cases h2 : k0 = k'
        · subst h2
          simp [mapStore, mapLookup, h0, h1]
        · simp [mapStore, mapLookup, h0, h1, h2, ih]

theorem mem_mapStore {κ α : Type} [DecidableEq κ] (m : GoMap κ α) (k : κ) (a : α)
    (kv : κ × α) (h : kv ∈ mapStore m k a) : kv = (k, a) ∨ kv ∈ m := by
  induction m with
  | nil => simpa [mapStore] using h
  | cons kv0 m ih =>
    obtain ⟨k0, a0⟩ := kv0
    by_cases h0 : k0 = k
    · simp only [mapStore, h0, if_true, List.mem_cons] at h
      rcases h with h | h
      · exact Or.inl h
      · exact Or.inr (List.mem_cons_of_mem _ h)
    · simp only [mapStore, h0, if_false, List.mem_cons] at h
      rcases h with h | h
      · exact Or.inr (by simp [h])
      · rcases ih h with h | h
        · exact Or.inl h
        · exact Or.inr (List.mem_cons_of_mem _ h)

theorem keys_mapStore {κ α : Type} [DecidableEq κ] (m : GoMap κ α) (k : κ) (a : α) :
    (mapStore m k a).map Prod.fst
      = if k ∈ m.map Prod.fst then m.map Prod.fst else m.map Prod.fst ++ [k] := by
  induction m with
  | nil => simp [mapStore]
  | cons kv0 m ih =>
    obtain ⟨k0, a0⟩ := kv0
    by_cases h0 : k0 = k
    · subst h0
      simp [mapStore]
    · have h1 : ¬ k = k0 := fun e => h0 e.symm
      simp only [mapStore, h0, if_false, List.map_cons, ih, List.mem_cons, h1, false_or]
      split <;> simp

theorem nodup_keys_mapStore {κ α : Type} [DecidableEq κ] (m : GoMap κ α) (k : κ) (a : α)
    (h : (m.map Prod.fst).Nodup) : ((mapStore m k a).map Prod.fst).Nodup := by
  rw [keys_mapStore]
  split
  · exact h
  · rename_i hk
    rw [List.nodup_append]
    exact ⟨h, List.nodup_singleton k, by
      intro x hx hx2
      simp only [List.mem_singleton] at hx2
      exact hk (hx2 ▸ hx)⟩

theorem sum_lengths_mapStore {κ β : Type} [DecidableEq κ] (m : GoMap κ (List β)) (k : κ)
    (v : β) :
    ((mapStore m k ((mapLookup m k).getD [] ++ [v])).map (fun kv => kv.2.length)).sum
      = (m.map (fun kv => kv.2.length)).sum + 1 := by
  induction m with
  | nil => simp [mapStore, mapLookup]
  | cons kv0 m ih =>
    obtain ⟨k0, a0⟩ := kv0
    by_cases h0 : k0 = k
    · subst h0
      simp [mapStore, mapLookup]
      omega
    · simp only [mapStore, mapLookup, h0, if_false, List.map_cons, List.sum_cons, ih]
      omega

theorem Grouped.step_str {deepGet : RuntimeContainer → Str → Value} {key : Str}
    {seen : List RuntimeContainer} {g : GoMap Str (List RuntimeContainer)}
    (h : Grouped deepGet key seen g) (v : RuntimeContainer) (s : Str)
    (hv : deepGet v key = .str s) :
    Grouped deepGet key (seen ++ [v]) (mapStore g s ((mapLookup g s).getD [] ++ [v])) where
  group := by
    intro k
    rw [mapLookup_mapStore]
    by_cases hk : s = k
    · subst hk
      simp [withValue, List.filter_append, hv, h.group s]
    · have : ¬ (Value.str s = Value.str k) := fun e => hk (Value.str.inj e)
      simp [hk, withValue, List.filter_append, hv, this, h.group k]
  nonempty := by
    intro kv hkv
    rcases mem_mapStore _ _ _ _ hkv with e | e
    · subst e; simp
    · exact h.nonempty kv e
  sizes := by
    rw [sum_lengths_mapStore, h.sizes]
    simp [List.filter_append, hv, Value.isStr]
  keys := nodup_keys_mapStore _ _ _ h.keys

theorem Grouped.step_nil {deepGet : RuntimeContainer → Str → Value} {key : Str}
    {seen : List RuntimeContainer} {g : GoMap Str (List RuntimeContainer)}
    (h : Grouped deepGet key seen g) (v : RuntimeContainer) (hv : deepGet v key = .nil) :
    Grouped deepGet key (seen ++ [v]) g where
  group := by
    intro k
    simp [withValue, List.filter_append, hv, h.group k]
  nonempty := h.nonempty
  sizes := by
    rw [h.sizes]
    simp [List.filter_append, hv, Value.isStr]
  keys := h.keys

theorem groupBy_grouped (deepGet : RuntimeContainer → Str → Value) (key : Str)
    (entries seen : List RuntimeContainer) (g : GoMap Str (List RuntimeContainer))
    (hg : Grouped deepGet key seen g) (h : ∀ v ∈ entries, deepGet v key ≠ .other) :
    ∃ g', groupBy deepGet entries key g = some g' ∧ Grouped deepGet key (seen ++ entries) g' := by
  induction entries generalizing seen g with
  | nil => exact ⟨g, rfl, by simpa using hg⟩
  | cons v rest ih =>
    have hrest : ∀ w ∈ rest, deepGet w key ≠ .other := fun w hw => h w (List.mem_cons_of_mem _ hw)
    have e : seen ++ v :: rest = (seen ++ [v]) ++ rest := by simp
    rw [e]
    unfold groupBy
    cases hv : deepGet v key with
    | nil => exact ih _ _ (hg.step_nil v hv) hrest
    | str s => exact ih _ _ (hg.step_str v s hv) hrest
    | other => exact absurd hv (h v (List.mem_cons_self _ _))

theorem groupBy_panics (deepGet : RuntimeContainer → Str → Value) (key : Str)
    (entries : List RuntimeContainer) (g : GoMap Str (List RuntimeContainer))
    (h : ∃ v ∈ entries, deepGet v key = .other) : groupBy deepGet entries key g = none := by
  induction entries generalizing g with
  | nil => simp at h
  | cons v rest ih =>
    unfold groupBy
    cases hv : deepGet v key with
    | other => rfl
    | nil =>
      refine ih _ ?_
      obtain ⟨w, hw, hw2⟩ := h
      rcases List.mem_cons.1 hw with e | e
      · subst e; rw [hv] at hw2; cases hw2
      · exact ⟨w, e, hw2⟩
    | str s =>
      refine ih _ ?_
      obtain ⟨w, hw, hw2⟩ := h
      rcases List.mem_cons.1 hw with e | e
      · subst e; rw [hv] at hw2; cases hw2
      · exact ⟨w, e, hw2⟩

theorem mapLookup_of_mem {κ α : Type} [DecidableEq κ] (m : GoMap κ α)
    (h : (m.map Prod.fst).Nodup) (kv : κ × α) (hkv : kv ∈ m) : mapLookup m kv.1 = some kv.2 := by
  induction m with
  | nil => simp at hkv
  | cons kv0 m ih =>
    obtain ⟨k0, a0⟩ := kv0
    simp only [List.map_cons, List.nodup_cons] at h
    rcases List.mem_cons.1 hkv with e | e
    · subst e; simp [mapLookup]
    · have hne : k0 ≠ kv.1 := fun e2 => h.1 (e2 ▸ List.mem_map_of_mem Prod.fst e)
      simp [mapLookup, hne, ih h.2 e]

/-! ## Claims on groupBy -/

/-- C10, as stated, fails: on a container whose value at the key path `Image` is
present and not a string, `groupBy` does not return normally. -/
theorem groupBy_non_string_counterexample :
    deepGet (testContainer "1".toList "demo1.localhost".toList) "Image".toList = .other
      ∧ groupBy deepGet [testContainer "1".toList "demo1.localhost".toList] "Image".toList []
          = none := by
  decide

/-- C10, amended: when no container has a value at the key path that is present and
not a string, `groupBy` returns a map in which the group under a string `k` is the
sub-list, in input order, of the containers whose value at the path is `k` (so a
container with an absent value is in no group), no group is empty, the keys are
distinct and the group sizes sum to the number of containers with a string value.
When some container has a value that is present and not a string, `groupBy` does
not return: the type assertion panics. -/
theorem groupBy_groups_by_string_value (deepGet : RuntimeContainer → Str → Value)
    (entries : List RuntimeContainer) (key : Str) :
    ((∀ v ∈ entries, deepGet v key ≠ .other) →
      ∃ g, groupBy deepGet entries key [] = some g
        ∧ (∀ k, (mapLookup g k).getD [] = withValue deepGet entries key k)
        ∧ (∀ kv ∈ g, kv.2 ≠ [] ∧ kv.2 = withValue deepGet entries key kv.1)
        ∧ (g.map (fun kv => kv.2.length)).sum
            = (entries.filter (fun v => (deepGet v key).isStr)).length
        ∧ (g.map Prod.fst).Nodup)
      ∧ ((∃ v ∈ entries, deepGet v key = .other) → groupBy deepGet entries key [] = none) := by
  constructor
  · intro h
    have h0 : Grouped deepGet key [] [] :=
      { group := fun k => by simp [mapLookup, withValue]
        nonempty := fun kv hkv => by simp at hkv
        sizes := by simp
        keys := by simp }
    obtain ⟨g, hg, hG⟩ := groupBy_grouped deepGet key entries [] [] h0 h
    rw [List.nil_append] at hG
    refine ⟨g, hg, hG.group, fun kv hkv => ⟨hG.nonempty kv hkv, ?_⟩, hG.sizes, hG.keys⟩
    have := hG.group kv.1
    rw [mapLookup_of_mem g hG.keys kv hkv] at this
    simpa using this
  · exact groupBy_panics deepGet key entries []

/-- Witness of the amended C10 on the containers of `TestGroupByExistingKey`. -/
theorem groupBy_groups_by_string_value_witness :
    (∀ v ∈ testContainers, deepGet v "Env.VIRTUAL_HOST".toList ≠ .other)
      ∧ groupBy deepGet testContainers "Env.VIRTUAL_HOST".toList []
          = some [("demo1.localhost".toList,
                    [testContainer "1".toList "demo1.localhost".toList,
                     testContainer "2".toList "demo1.localhost".toList]),
                  ("demo2.localhost".toList, [testContainer "3".toList "demo2.localhost".toList])]
      ∧ ∃ g, groupBy deepGet testContainers "Env.VIRTUAL_HOST".toList [] = some g
        ∧ (∀ k, (mapLookup g k).getD []
            = withValue deepGet testContainers "Env.VIRTUAL_HOST".toList k)
        ∧ (∀ kv ∈ g, kv.2 ≠ []
            ∧ kv.2 = withValue deepGet testContainers "Env.VIRTUAL_HOST".toList kv.1)
        ∧ (g.map (fun kv => kv.2.length)).sum
            = (testContainers.filter
                (fun v => (deepGet v "Env.VIRTUAL_HOST".toList).isStr)).length
        ∧ (g.map Prod.fst).Nodup :=
  ⟨by decide, by decide,
   (groupBy_groups_by_string_value deepGet testContainers "Env.VIRTUAL_HOST".toList).1
     (by decide)⟩

/-! ## Lemmas on the file system and on generateFile -/

theorem applySteps_nil (sys : Sys) (fs : FS) : applySteps sys fs [] = fs := rfl

theorem applySteps_cons (sys : Sys) (fs : FS) (st : Step) (rest : List Step) :
    applySteps sys fs (st :: rest) = applySteps sys (applyStep sys fs st) rest := rfl

theorem applySteps_append (sys : Sys) (fs : FS) (a b : List Step) :
    applySteps sys fs (a ++ b) = applySteps sys (applySteps sys fs a) b := by
  simp [applySteps, List.foldl_append]

/-- A step that does not touch a path leaves its entry as it is. -/
theorem applyStep_of_not_touches (sys : Sys) (fs : FS) (p : Str) (st : Step)
    (h : st.touches p = false) : applyStep sys fs st p = fs p := by
  cases st <;> simp [Step.touches] at h <;> simp [applyStep, FS.put]
  case createTemp => exact fun e => absurd e.symm h
  case write => exact fun e => absurd e.symm h
  case chmod => exact fun e => absurd e.symm h
  case chown => exact fun e => absurd e.symm h
  case remove => exact fun e => absurd e.symm h
  case rename src dst =>
    split
    · rfl
    · have h1 : ¬ p = src := fun e => h.1 e.symm
      have h2 : ¬ p = dst := fun e => h.2 e.symm
      simp [FS.put, h1, h2]

theorem applySteps_of_not_touches (sys : Sys) (fs : FS) (p : Str) (steps : List Step)
    (h : ∀ st ∈ steps, st.touches p = false) : applySteps sys fs steps p = fs p := by
  induction steps generalizing fs with
  | nil => rfl
  | cons st rest ih =>
    show applySteps sys (applyStep sys fs st) rest p = fs p
    rw [ih _ (fun s hs => h s (List.mem_cons_of_mem _ hs)),
      applyStep_of_not_touches sys fs p st (h st (List.mem_cons_self _ _))]

theorem applySteps_writes (sys : Sys) (fs : FS) (tmp : Str) (f : File) (chunks : List Str)
    (h : fs tmp = some f) :
    applySteps sys fs (chunks.map (Step.write tmp)) tmp
      = some { f with contents := f.contents ++ chunks.flatten } := by
  induction chunks generalizing fs f with
  | nil => simp [applySteps, h]
  | cons c rest ih =>
    show applySteps sys (applyStep sys fs (Step.write tmp c)) (rest.map (Step.write tmp)) tmp = _
    rw [ih (applyStep sys fs (Step.write tmp c)) { f with contents := f.contents ++ c }
      (by simp [applyStep, FS.put, h])]
    simp

/-- After the temporary file is created and written it holds the rendered bytes,
with mode 0600 and the identity of the process. -/
theorem applySteps_tempSteps (sys : Sys) (config : Config) (fs : FS) (tmp : Str)
    (chunks : List Str) :
    applySteps sys fs (tempSteps sys config tmp chunks) tmp
      = some { contents := chunks.flatten, mode := 0o600, uid := sys.uid, gid := sys.gid } := by
  show applySteps sys (applyStep sys fs (Step.createTemp _ _ tmp)) (chunks.map (Step.write tmp)) tmp
    = _
  rw [applySteps_writes sys _ tmp
    { contents := [], mode := 0o600, uid := sys.uid, gid := sys.gid } chunks
    (by simp [applyStep, FS.put])]
  simp

theorem tempSteps_not_touches (sys : Sys) (config : Config) (tmp : Str) (chunks : List Str)
    (p : Str) (h : tmp ≠ p) : ∀ st ∈ tempSteps sys config tmp chunks, st.touches p = false := by
  intro st hst
  simp only [tempSteps, List.mem_cons, List.mem_map] at hst
  rcases hst with e | ⟨c, -, e⟩ <;> subst e <;> simp [Step.touches, h]

theorem applySteps_tempSteps_dest (sys : Sys) (config : Config) (fs : FS) (tmp : Str)
    (chunks : List Str) (h : tmp ≠ config.Dest) :
    applySteps sys fs (tempSteps sys config tmp chunks) config.Dest = fs config.Dest :=
  applySteps_of_not_touches sys fs _ _ (tempSteps_not_touches sys config tmp chunks _ h)

theorem applySteps_perms_dest (sys : Sys) (config : Config) (fs : FS) (tmp : Str)
    (chunks : List Str) (m u g : Nat) (h : tmp ≠ config.Dest) :
    applySteps sys fs (tempSteps sys config tmp chunks ++ [Step.chmod tmp m] ++ [Step.chown tmp u g])
      config.Dest = fs config.Dest := by
  apply applySteps_of_not_touches
  intro st hst
  simp only [List.mem_append, List.mem_singleton] at hst
  rcases hst with (hst | e) | e
  · exact tempSteps_not_touches sys config tmp chunks _ h st hst
  · subst e; simp [Step.touches, h]
  · subst e; simp [Step.touches, h]

/-- The shape of a pass with a destination path: it returns true after the rename,
returns false without it, or ends fatally before it. -/
theorem generateFile_shape (sys : Sys) (tmpl : Template) (config : Config)
    (containers : List RuntimeContainer) (fs : FS) (tmp : Str)
    (hd : config.Dest ≠ []) (ht : sys.tempFile = some tmp) (hne : tmp ≠ config.Dest) :
    ((generateFile sys (.ok tmpl) config containers fs).exit = .returned true
        ∧ (tmpl (filterContainers config containers)).err = none
        ∧ rendered tmpl config containers ≠ baseline fs config
        ∧ (generateFile sys (.ok tmpl) config containers fs).steps
            = tempSteps sys config tmp (tmpl (filterContainers config containers)).chunks
              ++ permSteps tmp (fs config.Dest)
              ++ [Step.rename tmp config.Dest, Step.remove tmp])
      ∨ ((generateFile sys (.ok tmpl) config containers fs).exit = .returned false
        ∧ (tmpl (filterContainers config containers)).err = none
        ∧ rendered tmpl config containers = baseline fs config
        ∧ (generateFile sys (.ok tmpl) config containers fs).steps
            = tempSteps sys config tmp (tmpl (filterContainers config containers)).chunks
              ++ permSteps tmp (fs config.Dest)
              ++ [Step.remove tmp])
      ∨ ((generateFile sys (.ok tmpl) config containers fs).exit = .fatal
        ∧ (∃ k, (generateFile sys (.ok tmpl) config containers fs).steps
            = tempSteps sys config tmp (tmpl (filterContainers config containers)).chunks
              ++ (permSteps tmp (fs config.Dest)).take k)
        ∧ ((tmpl (filterContainers config containers)).err ≠ none ∨ sys.chmodOk = false
            ∨ sys.chownOk = false ∨ sys.readOk = false
            ∨ (sys.renameOk = false
              ∧ rendered tmpl config containers ≠ baseline fs config))) := by
  unfold generateFile
  simp only [hd, ht, ne_eq, not_false_eq_true, if_true]
  cases herr : (tmpl (filterContainers config containers)).err with
  | some e =>
    right; right
    exact ⟨rfl, ⟨0, by simp⟩, Or.inl (by simp)⟩
  | none =>
    simp only [applySteps_tempSteps_dest sys config fs tmp _ hne]
    cases hfd : fs config.Dest with
    | none =>
      simp only [rendered, baseline, hfd, permSteps, Option.map_none', Option.getD_none]
      by_cases hb : ([] : Str) = (tmpl (filterContainers config containers)).chunks.flatten
      · right; left
        rw [if_neg (not_not.2 hb)]
        exact ⟨rfl, trivial, hb.symm, by simp⟩
      · rw [if_pos hb]
        cases hr : sys.renameOk
        · right; right
          exact ⟨rfl, ⟨0, by simp⟩, Or.inr (Or.inr (Or.inr (Or.inr ⟨rfl, fun e => hb e.symm⟩)))⟩
        · left
          exact ⟨rfl, trivial, fun e => hb e.symm, by simp⟩
    | some fi =>
      simp only [rendered, baseline, hfd, permSteps, Option.map_some', Option.getD_some]
      cases h1 : sys.chmodOk
      · right; right
        exact ⟨rfl, ⟨0, by simp⟩, by simp⟩
      · cases h2 : sys.chownOk
        · right; right
          exact ⟨rfl, ⟨1, by simp⟩, by simp⟩
        · cases h3 : sys.readOk
          · right; right
            exact ⟨rfl, ⟨2, by simp⟩, by simp⟩
          · simp only [applySteps_perms_dest sys config fs tmp _ _ _ _ hne, hfd,
              Option.map_some', Option.getD_some, Bool.not_true, Bool.false_eq_true, if_false]
            by_cases hb : fi.contents = (tmpl (filterContainers config containers)).chunks.flatten
            · right; left
              rw [if_neg (not_not.2 hb)]
              exact ⟨rfl, trivial, hb.symm, by simp⟩
            · rw [if_pos hb]
              cases hr : sys.renameOk
              · right; right
                exact ⟨rfl, ⟨2, by simp⟩,
                  Or.inr (Or.inr (Or.inr (Or.inr ⟨rfl, fun e => hb e.symm⟩)))⟩
              · left
                exact ⟨rfl, trivial, fun e => hb e.symm, by simp⟩

theorem permSteps_not_touches (tmp p : Str) (old : Option File) (h : tmp ≠ p) :
    ∀ st ∈ permSteps tmp old, st.touches p = false := by
  intro st hst
  cases old with
  | none => simp [permSteps] at hst
  | some fi =>
    simp only [permSteps, List.mem_cons, List.mem_singleton, List.not_mem_nil, or_false] at hst
    rcases hst with e | e <;> subst e <;> simp [Step.touches, h]

/-- After the temporary file is written and given the mode and the owner of the
destination, it is the file the rename will put there. -/
theorem applySteps_temp_perms (sys : Sys) (config : Config) (fs : FS) (tmp : Str)
    (chunks : List Str) (old : Option File) :
    applySteps sys fs (tempSteps sys config tmp chunks ++ permSteps tmp old) tmp
      = some (renamedFile sys chunks.flatten old) := by
  rw [applySteps_append]
  have h := applySteps_tempSteps sys config fs tmp chunks
  cases old with
  | none => simpa [permSteps, applySteps_nil, renamedFile] using h
  | some fi =>
    simp [permSteps, applySteps_cons, applySteps_nil, applyStep, FS.put, h, renamedFile]

/-- The steps before the rename leave the destination as it is. -/
theorem applySteps_before_rename (sys : Sys) (config : Config) (fs : FS) (tmp : Str)
    (chunks : List Str) (old : Option File) (k : Nat) (h : tmp ≠ config.Dest) :
    applySteps sys fs (tempSteps sys config tmp chunks ++ (permSteps tmp old).take k) config.Dest
      = fs config.Dest := by
  apply applySteps_of_not_touches
  intro st hst
  rcases List.mem_append.1 hst with hst | hst
  · exact tempSteps_not_touches sys config tmp chunks _ h st hst
  · exact permSteps_not_touches tmp _ old h st (List.mem_of_mem_take hst)

/-- A pass that ends with the rename puts the rendered file at the destination. -/
theorem applySteps_rename (sys : Sys) (config : Config) (fs : FS) (tmp : Str)
    (chunks : List Str) (old : Option File) (h : tmp ≠ config.Dest) :
    applySteps sys fs
        (tempSteps sys config tmp chunks ++ permSteps tmp old
          ++ [Step.rename tmp config.Dest, Step.remove tmp]) config.Dest
      = some (renamedFile sys chunks.flatten old) := by
  rw [applySteps_append]
  have ht := applySteps_temp_perms sys config fs tmp chunks old
  have h2 : ¬ config.Dest = tmp := fun e => h e.symm
  simp only [applySteps_cons, applySteps_nil, applyStep, FS.put, h, h2, if_false, if_true]
  exact ht

/-- A pass that ends without the rename leaves the destination as it is. -/
theorem applySteps_no_rename (sys : Sys) (config : Config) (fs : FS) (tmp : Str)
    (chunks : List Str) (old : Option File) (h : tmp ≠ config.Dest) :
    applySteps sys fs
        (tempSteps sys config tmp chunks ++ permSteps tmp old ++ [Step.remove tmp]) config.Dest
      = fs config.Dest := by
  rw [applySteps_append]
  have h1 := applySteps_before_rename sys config fs tmp chunks old 2 h
  have hk : (permSteps tmp old).take 2 = permSteps tmp old := by
    cases old <;> simp [permSteps]
  rw [hk] at h1
  have h2 : ¬ config.Dest = tmp := fun e => h e.symm
  simp only [applySteps_cons, applySteps_nil, applyStep, FS.put, h2, if_false]
  exact h1

/-- The three ways a pass with a destination path ends, with the destination
afterwards. -/
theorem generateFile_outcome (sys : Sys) (tmpl : Template) (config : Config)
    (containers : List RuntimeContainer) (fs : FS) (tmp : Str)
    (hd : config.Dest ≠ []) (ht : sys.tempFile = some tmp) (hne : tmp ≠ config.Dest) :
    ((generateFile sys (.ok tmpl) config containers fs).exit = .returned true
        ∧ (tmpl (filterContainers config containers)).err = none
        ∧ rendered tmpl config containers ≠ baseline fs config
        ∧ fsAfter sys (.ok tmpl) config containers fs config.Dest
            = some (renamedFile sys (rendered tmpl config containers) (fs config.Dest)))
      ∨ ((generateFile sys (.ok tmpl) config containers fs).exit = .returned false
        ∧ (tmpl (filterContainers config containers)).err = none
        ∧ rendered tmpl config containers = baseline fs config
        ∧ fsAfter sys (.ok tmpl) config containers fs config.Dest = fs config.Dest)
      ∨ ((generateFile sys (.ok tmpl) config containers fs).exit = .fatal
        ∧ fsAfter sys (.ok tmpl) config containers fs config.Dest = fs config.Dest
        ∧ ((tmpl (filterContainers config containers)).err ≠ none ∨ sys.chmodOk = false
            ∨ sys.chownOk = false ∨ sys.readOk = false
            ∨ (sys.renameOk = false
              ∧ rendered tmpl config containers ≠ baseline fs config))) := by
  rcases generateFile_shape sys tmpl config containers fs tmp hd ht hne with
    ⟨h1, h2, h3, h4⟩ | ⟨h1, h2, h3, h4⟩ | ⟨h1, ⟨k, h4⟩, h5⟩
  · left
    refine ⟨h1, h2, h3, ?_⟩
    rw [fsAfter, h4]
    exact applySteps_rename sys config fs tmp _ _ hne
  · right; left
    refine ⟨h1, h2, h3, ?_⟩
    rw [fsAfter, h4]
    exact applySteps_no_rename sys config fs tmp _ _ hne
  · right; right
    refine ⟨h1, ?_, h5⟩
    rw [fsAfter, h4]
    exact applySteps_before_rename sys config fs tmp _ _ k hne

/-- Without a temporary file the pass ends fatally before any step. -/
theorem generateFile_no_temp (sys : Sys) (tmpl : Template) (config : Config)
    (containers : List RuntimeContainer) (fs : FS)
    (hd : config.Dest ≠ []) (ht : sys.tempFile = none) :
    generateFile sys (.ok tmpl) config containers fs = { steps := [], exit := .fatal } := by
  unfold generateFile
  simp [hd, ht]

theorem contents_renamedFile (sys : Sys) (bytes : Str) (old : Option File) :
    (renamedFile sys bytes old).contents = bytes := by
  cases old <;> rfl

/-! ## Claims on generateFile -/

/-- C5: when rendering succeeds and the temporary file is not the destination
itself, a pass with a destination path that returns, returns true exactly when the
rendered bytes differ from the baseline (the bytes of the file at the destination,
empty when there is none); after true the destination holds the rendered bytes,
after false it is as before; and the pass does return when every call of the
operating system succeeds.  With no destination path the pass returns true. -/
theorem generateFile_reports_change (sys : Sys) (tmpl : Template) (config : Config)
    (containers : List RuntimeContainer) (fs : FS)
    (hrender : (tmpl (filterContainers config containers)).err = none)
    (htmp : sys.tempFile ≠ some config.Dest) :
    (config.Dest ≠ [] →
        (∀ b, (generateFile sys (.ok tmpl) config containers fs).exit = .returned b →
          (b = true ↔ rendered tmpl config containers ≠ baseline fs config)
            ∧ (b = true →
                (fsAfter sys (.ok tmpl) config containers fs config.Dest).map (fun f => f.contents)
                  = some (rendered tmpl config containers))
            ∧ (b = false →
                fsAfter sys (.ok tmpl) config containers fs config.Dest = fs config.Dest))
          ∧ (sys.tempFile.isSome → sys.chmodOk = true → sys.chownOk = true →
              sys.readOk = true → sys.renameOk = true →
              ∃ b, (generateFile sys (.ok tmpl) config containers fs).exit = .returned b))
      ∧ (config.Dest = [] →
          (generateFile sys (.ok tmpl) config containers fs).exit = .returned true) := by
  constructor
  · intro hd
    cases ht : sys.tempFile with
    | none =>
      rw [generateFile_no_temp sys tmpl config containers fs hd ht]
      exact ⟨fun b hb => (by cases hb), fun h => (by simp at h)⟩
    | some tmp =>
      have hne : tmp ≠ config.Dest := fun e => htmp (by rw [ht, e])
      rcases generateFile_outcome sys tmpl config containers fs tmp hd ht hne with
        ⟨h1, -, h3, h4⟩ | ⟨h1, -, h3, h4⟩ | ⟨h1, -, h5⟩
      · refine ⟨fun b hb => ?_, fun _ _ _ _ _ => ⟨true, h1⟩⟩
        rw [h1] at hb
        cases hb
        refine ⟨by simp [h3], fun _ => ?_, fun h => (by cases h)⟩
        rw [h4]
        simp [contents_renamedFile]
      · refine ⟨fun b hb => ?_, fun _ _ _ _ _ => ⟨false, h1⟩⟩
        rw [h1] at hb
        cases hb
        exact ⟨by simp [h3], fun h => (by cases h), fun _ => h4⟩
      · refine ⟨fun b hb => (by rw [h1] at hb; cases hb), fun _ c1 c2 c3 c4 => ?_⟩
        rcases h5 with h | h | h | h | ⟨h, -⟩
        · exact absurd hrender h
        · rw [c1] at h; cases h
        · rw [c2] at h; cases h
        · rw [c3] at h; cases h
        · rw [c4] at h; cases h
  · intro hd
    unfold generateFile
    simp [hd, hrender]

/-- Witness of C5: the destination holds other bytes, so the pass returns true and
the destination then holds the rendered bytes. -/
theorem generateFile_reports_change_witness :
    (sampleTemplate (filterContainers sampleConfig testContainers)).err = none
      ∧ sampleSys.tempFile ≠ some sampleConfig.Dest
      ∧ (generateFile sampleSys (.ok sampleTemplate) sampleConfig testContainers sampleFS).exit
          = .returned true
      ∧ ((true = true ↔ rendered sampleTemplate sampleConfig testContainers
            ≠ baseline sampleFS sampleConfig)
        ∧ (true = true →
            (fsAfter sampleSys (.ok sampleTemplate) sampleConfig testContainers sampleFS
              sampleConfig.Dest).map (fun f => f.contents)
              = some (rendered sampleTemplate sampleConfig testContainers))
        ∧ (true = false →
            fsAfter sampleSys (.ok sampleTemplate) sampleConfig testContainers sampleFS
              sampleConfig.Dest = sampleFS sampleConfig.Dest)) :=
  ⟨rfl, by decide, by decide,
   ((generateFile_reports_change sampleSys sampleTemplate sampleConfig testContainers sampleFS
      rfl (by decide)).1 (by decide)).1 true (by decide)⟩

/-- After a pass that returns, the baseline is the rendered output. -/
theorem baseline_after_pass (sys : Sys) (tmpl : Template) (config : Config)
    (containers : List RuntimeContainer) (fs : FS) (hd : config.Dest ≠ [])
    (htmp : sys.tempFile ≠ some config.Dest) (b : Bool)
    (hrun : (generateFile sys (.ok tmpl) config containers fs).exit = .returned b) :
    (tmpl (filterContainers config containers)).err = none
      ∧ rendered tmpl config containers
          = baseline (fsAfter sys (.ok tmpl) config containers fs) config := by
  cases ht : sys.tempFile with
  | none =>
    rw [generateFile_no_temp sys tmpl config containers fs hd ht] at hrun
    cases hrun
  | some tmp =>
    have hne : tmp ≠ config.Dest := fun e => htmp (by rw [ht, e])
    rcases generateFile_outcome sys tmpl config containers fs tmp hd ht hne with
      ⟨-, h2, -, h4⟩ | ⟨-, h2, h3, h4⟩ | ⟨h1, -, -⟩
    · exact ⟨h2, by simp [baseline, h4, contents_renamedFile]⟩
    · refine ⟨h2, ?_⟩
      rw [h3]
      simp [baseline, h4]
    · rw [h1] at hrun
      cases hrun

/-- C6: after a pass with a destination path that returns, a second pass with the
same template and the same collection does not return true, returns false when
every call of the operating system it makes succeeds, and leaves the file at the
destination (bytes, mode, owner and group) as the first pass left it.  The
temporary file of neither pass is the destination itself. -/
theorem generateFile_idempotent (sys1 sys2 : Sys) (tmpl : Template) (config : Config)
    (containers : List RuntimeContainer) (fs : FS) (b1 : Bool)
    (hd : config.Dest ≠ [])
    (h1 : sys1.tempFile ≠ some config.Dest) (h2 : sys2.tempFile ≠ some config.Dest)
    (hrun : (generateFile sys1 (.ok tmpl) config containers fs).exit = .returned b1) :
    (generateFile sys2 (.ok tmpl) config containers
        (fsAfter sys1 (.ok tmpl) config containers fs)).exit ≠ .returned true
      ∧ (sys2.tempFile.isSome → sys2.chmodOk = true → sys2.chownOk = true → sys2.readOk = true →
          (generateFile sys2 (.ok tmpl) config containers
            (fsAfter sys1 (.ok tmpl) config containers fs)).exit = .returned false)
      ∧ fsAfter sys2 (.ok tmpl) config containers (fsAfter sys1 (.ok tmpl) config containers fs)
            config.Dest
          = fsAfter sys1 (.ok tmpl) config containers fs config.Dest := by
  obtain ⟨herr, hbase⟩ := baseline_after_pass sys1 tmpl config containers fs hd h1 b1 hrun
  cases ht : sys2.tempFile with
  | none =>
    have hs : fsAfter sys2 (.ok tmpl) config containers
        (fsAfter sys1 (.ok tmpl) config containers fs)
          = fsAfter sys1 (.ok tmpl) config containers fs := by
      rw [fsAfter, generateFile_no_temp sys2 tmpl config containers _ hd ht]
      rfl
    rw [generateFile_no_temp sys2 tmpl config containers _ hd ht, hs]
    exact ⟨fun h => (by cases h), fun h => (by simp at h), rfl⟩
  | some tmp =>
    have hne : tmp ≠ config.Dest := fun e => h2 (by rw [ht, e])
    rcases generateFile_outcome sys2 tmpl config containers
        (fsAfter sys1 (.ok tmpl) config containers fs) tmp hd ht hne with
      ⟨-, -, h3, -⟩ | ⟨e1, -, -, e4⟩ | ⟨e1, e4, e5⟩
    · exact absurd hbase h3
    · rw [e1]
      exact ⟨fun h => (by cases h), fun _ _ _ _ => rfl, e4⟩
    · rw [e1]
      refine ⟨fun h => (by cases h), fun _ c1 c2 c3 => ?_, e4⟩
      rcases e5 with h | h | h | h | ⟨-, h⟩
      · exact absurd herr h
      · rw [c1] at h; cases h
      · rw [c2] at h; cases h
      · rw [c3] at h; cases h
      · exact absurd hbase h

/-- Witness of C6: the first pass replaces the file, the second returns false and
leaves the file with the mode 0644, the owner 33 and the group 34. -/
theorem generateFile_idempotent_witness :
    (generateFile sampleSys (.ok sampleTemplate) sampleConfig testContainers sampleFS).exit
        = .returned true
      ∧ (generateFile sampleSys (.ok sampleTemplate) sampleConfig testContainers
          (fsAfter sampleSys (.ok sampleTemplate) sampleConfig testContainers sampleFS)).exit
        = .returned false
      ∧ fsAfter sampleSys (.ok sampleTemplate) sampleConfig testContainers
            (fsAfter sampleSys (.ok sampleTemplate) sampleConfig testContainers sampleFS)
            sampleConfig.Dest
          = fsAfter sampleSys (.ok sampleTemplate) sampleConfig testContainers sampleFS
              sampleConfig.Dest :=
  ⟨by decide,
   (generateFile_idempotent sampleSys sampleSys sampleTemplate sampleConfig testContainers
      sampleFS true (by decide) (by decide) (by decide) (by decide)).2.1 rfl rfl rfl rfl,
   (generateFile_idempotent sampleSys sampleSys sampleTemplate sampleConfig testContainers
      sampleFS true (by decide) (by decide) (by decide) (by decide)).2.2⟩

/-- C8: when a file is at the destination and the rendered bytes differ from its
bytes, a pass that returns leaves at the destination a file with the rendered bytes
and with the mode, the owner and the group of the file that was there; and the pass
returns (true) when rendering and every call of the operating system succeed. -/
theorem regeneration_keeps_mode_and_owner (sys : Sys) (tmpl : Template) (config : Config)
    (containers : List RuntimeContainer) (fs : FS) (fi : File)
    (hd : config.Dest ≠ []) (hex : fs config.Dest = some fi)
    (hfresh : ∀ tmp, sys.tempFile = some tmp → fs tmp = none)
    (hdiff : rendered tmpl config containers ≠ fi.contents) :
    (∀ b, (generateFile sys (.ok tmpl) config containers fs).exit = .returned b →
        fsAfter sys (.ok tmpl) config containers fs config.Dest
          = some { contents := rendered tmpl config containers, mode := fi.mode, uid := fi.uid,
                   gid := fi.gid })
      ∧ ((tmpl (filterContainers config containers)).err = none → sys.tempFile.isSome →
          sys.chmodOk = true → sys.chownOk = true → sys.readOk = true → sys.renameOk = true →
          (generateFile sys (.ok tmpl) config containers fs).exit = .returned true) := by
  have hbase : baseline fs config = fi.contents := by simp [baseline, hex]
  cases ht : sys.tempFile with
  | none =>
    rw [generateFile_no_temp sys tmpl config containers fs hd ht]
    exact ⟨fun b hb => (by cases hb), fun _ h => (by simp at h)⟩
  | some tmp =>
    have hne : tmp ≠ config.Dest := by
      intro e
      have := hfresh tmp ht
      rw [e, hex] at this
      cases this
    rcases generateFile_outcome sys tmpl config containers fs tmp hd ht hne with
      ⟨e1, -, -, e4⟩ | ⟨-, -, e3, -⟩ | ⟨e1, -, e5⟩
    · rw [e1]
      refine ⟨fun b _ => ?_, fun _ _ _ _ _ _ => rfl⟩
      rw [e4, hex]
      rfl
    · rw [hbase] at e3
      exact absurd e3 hdiff
    · rw [e1]
      refine ⟨fun b hb => (by cases hb), fun c0 _ c1 c2 c3 c4 => ?_⟩
      rcases e5 with h | h | h | h | ⟨h, -⟩
      · exact absurd c0 h
      · rw [c1] at h; cases h
      · rw [c2] at h; cases h
      · rw [c3] at h; cases h
      · rw [c4] at h; cases h

/-- Witness of C8: the file of mode 0644, owner 33 and group 34 at the destination
is replaced by one with the rendered bytes and the same mode, owner and group. -/
theorem regeneration_keeps_mode_and_owner_witness :
    sampleFS sampleConfig.Dest = some { contents := "old".toList, mode := 0o644, uid := 33, gid := 34 }
      ∧ (generateFile sampleSys (.ok sampleTemplate) sampleConfig testContainers sampleFS).exit
          = .returned true
      ∧ fsAfter sampleSys (.ok sampleTemplate) sampleConfig testContainers sampleFS
            sampleConfig.Dest
          = some { contents := rendered sampleTemplate sampleConfig testContainers,
                   mode := 0o644, uid := 33, gid := 34 } :=
  ⟨by decide, by decide,
   (regeneration_keeps_mode_and_owner sampleSys sampleTemplate sampleConfig testContainers
      sampleFS { contents := "old".toList, mode := 0o644, uid := 33, gid := 34 }
      (by decide) (by decide) (by intro tmp h; cases h; decide) (by decide)).1 true (by decide)⟩

/-! ## The pass as a sequence of steps -/

theorem touches_rename (tmp dest : Str) : (Step.rename tmp dest).touches dest = true := by
  simp [Step.touches]

theorem filterMap_chunk_tempSteps (sys : Sys) (config : Config) (tmp : Str) (chunks : List Str) :
    (tempSteps sys config tmp chunks).filterMap Step.chunk? = chunks := by
  have h : ∀ cs : List Str, (cs.map (Step.write tmp)).filterMap Step.chunk? = cs := by
    intro cs
    induction cs with
    | nil => rfl
    | cons c rest ih => simp [Step.chunk?, ih]
  simp [tempSteps, Step.chunk?, h]

theorem filterMap_chunk_perms (tmp : Str) (old : Option File) (k : Nat) :
    ((permSteps tmp old).take k).filterMap Step.chunk? = [] := by
  cases old with
  | none => simp [permSteps]
  | some fi =>
    match k with
    | 0 => simp
    | 1 => simp [permSteps, Step.chunk?]
    | k + 2 => simp [permSteps, Step.chunk?]

theorem take_permSteps (tmp : Str) (old : Option File) :
    (permSteps tmp old).take 2 = permSteps tmp old := by
  cases old <;> simp [permSteps]

/-- The steps before the rename: none touches the destination, and the chunks they
write are those of the rendering. -/
theorem base_steps (sys : Sys) (config : Config) (tmp : Str) (chunks : List Str)
    (old : Option File) (k : Nat) (hne : tmp ≠ config.Dest) :
    (∀ st ∈ tempSteps sys config tmp chunks ++ (permSteps tmp old).take k,
        st.touches config.Dest = false)
      ∧ (tempSteps sys config tmp chunks ++ (permSteps tmp old).take k).filterMap Step.chunk?
          = chunks := by
  constructor
  · intro st hst
    rcases List.mem_append.1 hst with h | h
    · exact tempSteps_not_touches sys config tmp chunks _ hne st h
    · exact permSteps_not_touches tmp _ old hne st (List.mem_of_mem_take h)
  · rw [List.filterMap_append, filterMap_chunk_tempSteps, filterMap_chunk_perms]
    simp

/-- A sequence of steps none of which touches a path: no rename onto the path is in
it, and the entry of the path is the same after every prefix. -/
theorem trace_without_rename (sys : Sys) (fs : FS) (tmp dest : Str) (steps : List Step)
    (h : ∀ st ∈ steps, st.touches dest = false) :
    Step.rename tmp dest ∉ steps
      ∧ ∀ pre, pre <+: steps → applySteps sys fs pre dest = fs dest := by
  constructor
  · intro hm
    have := h _ hm
    rw [touches_rename] at this
    cases this
  · intro pre hpre
    exact applySteps_of_not_touches sys fs dest pre (fun st hst => h st (hpre.mem hst))

/-- A sequence of steps that ends with the rename and the removal of the temporary
file: the rename is where the base ends, and after every prefix the entry of the
destination is the old one or the file renamed onto it. -/
theorem trace_with_rename (sys : Sys) (fs : FS) (tmp dest : Str) (base : List Step) (f : File)
    (hne : tmp ≠ dest) (hb : ∀ st ∈ base, st.touches dest = false)
    (hf : applySteps sys fs base tmp = some f) :
    (∀ pre post, base ++ [Step.rename tmp dest, Step.remove tmp]
          = pre ++ Step.rename tmp dest :: post → pre = base ∧ post = [Step.remove tmp])
      ∧ ∀ pre, pre <+: base ++ [Step.rename tmp dest, Step.remove tmp] →
          applySteps sys fs pre dest = fs dest ∨ applySteps sys fs pre dest = some f := by
  have hren : Step.rename tmp dest ∉ base := (trace_without_rename sys fs tmp dest base hb).1
  have h2 : ¬ dest = tmp := fun e => hne e.symm
  constructor
  · intro pre post e
    rcases List.append_eq_append_iff.1 e with ⟨a, ha, hb2⟩ | ⟨c, hc, hc2⟩
    · cases a with
      | nil =>
        simp only [List.append_nil, List.nil_append, List.cons.injEq, true_and] at ha hb2
        exact ⟨ha, hb2.symm⟩
      | cons x a =>
        simp only [List.cons_append, List.cons.injEq] at hb2
        obtain ⟨hx, hrest⟩ := hb2
        have hmem : Step.rename tmp dest ∈ [Step.remove tmp] := by
          have : Step.rename tmp dest ∈ a ++ Step.rename tmp dest :: post := by simp
          rw [← hrest] at this
          exact this
        simp at hmem
    · cases c with
      | nil =>
        simp only [List.append_nil, List.nil_append, List.cons.injEq, true_and] at hc hc2
        exact ⟨hc.symm, hc2⟩
      | cons x c =>
        simp only [List.cons_append, List.cons.injEq] at hc2
        exfalso
        apply hren
        rw [hc, ← hc2.1]
        simp
  · intro pre hpre
    have hbase : base <+: base ++ [Step.rename tmp dest, Step.remove tmp] :=
      List.prefix_append _ _
    rcases List.prefix_or_prefix_of_prefix hpre hbase with h | ⟨t, rfl⟩
    · left
      exact applySteps_of_not_touches sys fs dest pre (fun st hst => hb st (h.mem hst))
    · have ht : t <+: [Step.rename tmp dest, Step.remove tmp] :=
        (List.prefix_append_right_inj base).1 hpre
      have hbd := applySteps_of_not_touches sys fs dest base hb
      rw [applySteps_append]
      rcases List.prefix_cons_iff.1 ht with rfl | ⟨t1, rfl, ht1⟩
      · left
        simpa [applySteps_nil] using hbd
      · right
        rcases List.prefix_cons_iff.1 ht1 with rfl | ⟨t2, rfl, ht2⟩
        · simp [applySteps_cons, applySteps_nil, applyStep, FS.put, hne, h2, hf]
        · have : t2 = [] := by simpa using ht2
          subst this
          simp [applySteps_cons, applySteps_nil, applyStep, FS.put, hne, h2, hf]

theorem chunk_permSteps (tmp : Str) (old : Option File) :
    ∀ st ∈ permSteps tmp old, st.chunk? = none := by
  intro st hst
  cases old with
  | none => simp [permSteps] at hst
  | some fi =>
    simp only [permSteps, List.mem_cons, List.mem_singleton, List.not_mem_nil, or_false] at hst
    rcases hst with e | e <;> subst e <;> rfl

/-- The first step creates the temporary file in the directory of the destination,
and every write of the pass goes to it. -/
theorem head_and_writes (sys : Sys) (config : Config) (tmp : Str) (chunks : List Str)
    (rest : List Step) (hrest : ∀ st ∈ rest, st.chunk? = none) :
    (tempSteps sys config tmp chunks ++ rest).head?
        = some (Step.createTemp (sys.Dir config.Dest) "docker-gen".toList tmp)
      ∧ ∀ path chunk, Step.write path chunk ∈ tempSteps sys config tmp chunks ++ rest →
          path = tmp := by
  refine ⟨by simp [tempSteps], fun path chunk h => ?_⟩
  rcases List.mem_append.1 h with h | h
  · simp only [tempSteps, List.mem_cons, List.mem_map] at h
    rcases h with h | ⟨c, -, h⟩
    · cases h
    · cases h
      rfl
  · have := hrest _ h
    simp [Step.chunk?] at this

/-- C7: in a pass with a destination path, the first step creates the temporary file
in the directory of the destination and every write goes to that file; the only
step that acts on the destination is the rename of the temporary file onto it;
where that rename occurs, rendering has ended without error, all the chunks have
been written before it and no other step before or after it acts on the
destination; and after every prefix of the steps the destination is as it was
before the pass or holds the complete rendered output. -/
theorem destination_replaced_only_by_rename (sys : Sys) (tmpl : Template) (config : Config)
    (containers : List RuntimeContainer) (fs : FS) (tmp : Str)
    (hd : config.Dest ≠ []) (ht : sys.tempFile = some tmp) (hne : tmp ≠ config.Dest) :
    (generateFile sys (.ok tmpl) config containers fs).steps.head?
        = some (Step.createTemp (sys.Dir config.Dest) "docker-gen".toList tmp)
      ∧ (∀ path chunk,
          Step.write path chunk ∈ (generateFile sys (.ok tmpl) config containers fs).steps →
            path = tmp)
      ∧ (∀ st ∈ (generateFile sys (.ok tmpl) config containers fs).steps,
          st.touches config.Dest = true → st = Step.rename tmp config.Dest)
      ∧ (∀ pre post,
          (generateFile sys (.ok tmpl) config containers fs).steps
              = pre ++ Step.rename tmp config.Dest :: post →
            (tmpl (filterContainers config containers)).err = none
              ∧ pre.filterMap Step.chunk? = (tmpl (filterContainers config containers)).chunks
              ∧ ∀ st ∈ pre ++ post, st.touches config.Dest = false)
      ∧ (∀ pre, pre <+: (generateFile sys (.ok tmpl) config containers fs).steps →
          applySteps sys fs pre config.Dest = fs config.Dest
            ∨ ((tmpl (filterContainers config containers)).err = none
              ∧ applySteps sys fs pre config.Dest
                  = some (renamedFile sys (rendered tmpl config containers) (fs config.Dest)))) := by
  have hrm : (Step.remove tmp).touches config.Dest = false := by simp [Step.touches, hne]
  rcases generateFile_shape sys tmpl config containers fs tmp hd ht hne with
    ⟨-, herr, -, h4⟩ | ⟨-, -, -, h4⟩ | ⟨-, ⟨k, h4⟩, -⟩
  · obtain ⟨hb, hc⟩ := base_steps sys config tmp
      (tmpl (filterContainers config containers)).chunks (fs config.Dest) 2 hne
    rw [take_permSteps] at hb hc
    have hf := applySteps_temp_perms sys config fs tmp
      (tmpl (filterContainers config containers)).chunks (fs config.Dest)
    obtain ⟨t1, t2⟩ := trace_with_rename sys fs tmp config.Dest _ _ hne hb hf
    rw [h4]
    refine ⟨?_, ?_, ?_, ?_, ?_⟩
    · rw [List.append_assoc]
      exact (head_and_writes sys config tmp _ _ (fun st hst => by
        rcases List.mem_append.1 hst with h | h
        · exact chunk_permSteps tmp _ st h
        · simp only [List.mem_cons, List.mem_singleton, List.not_mem_nil, or_false] at h
          rcases h with e | e <;> subst e <;> rfl)).1
    · rw [List.append_assoc]
      exact (head_and_writes sys config tmp _ _ (fun st hst => by
        rcases List.mem_append.1 hst with h | h
        · exact chunk_permSteps tmp _ st h
        · simp only [List.mem_cons, List.mem_singleton, List.not_mem_nil, or_false] at h
          rcases h with e | e <;> subst e <;> rfl)).2
    · intro st hst htouch
      rcases List.mem_append.1 hst with h | h
      · rw [hb st h] at htouch
        cases htouch
      · simp only [List.mem_cons, List.mem_singleton, List.not_mem_nil, or_false] at h
        rcases h with e | e
        · exact e
        · subst e
          rw [hrm] at htouch
          cases htouch
    · intro pre post e
      obtain ⟨e1, e2⟩ := t1 pre post e
      subst e1 e2
      refine ⟨herr, hc, fun st hst => ?_⟩
      rcases List.mem_append.1 hst with h | h
      · exact hb st h
      · simp only [List.mem_singleton] at h
        subst h
        exact hrm
    · intro pre hpre
      rcases t2 pre hpre with h | h
      · exact Or.inl h
      · exact Or.inr ⟨herr, h⟩
  · obtain ⟨hb, -⟩ := base_steps sys config tmp
      (tmpl (filterContainers config containers)).chunks (fs config.Dest) 2 hne
    rw [take_permSteps] at hb
    have hall : ∀ st ∈ tempSteps sys config tmp (tmpl (filterContainers config containers)).chunks
        ++ permSteps tmp (fs config.Dest) ++ [Step.remove tmp],
        st.touches config.Dest = false := by
      intro st hst
      rcases List.mem_append.1 hst with h | h
      · exact hb st h
      · simp only [List.mem_singleton] at h
        subst h
        exact hrm
    obtain ⟨t1, t2⟩ := trace_without_rename sys fs tmp config.Dest _ hall
    rw [h4]
    refine ⟨?_, ?_, ?_, ?_, ?_⟩
    · rw [List.append_assoc]
      exact (head_and_writes sys config tmp _ _ (fun st hst => by
        rcases List.mem_append.1 hst with h | h
        · exact chunk_permSteps tmp _ st h
        · simp only [List.mem_singleton] at h
          subst h
          rfl)).1
    · rw [List.append_assoc]
      exact (head_and_writes sys config tmp _ _ (fun st hst => by
        rcases List.mem_append.1 hst with h | h
        · exact chunk_permSteps tmp _ st h
        · simp only [List.mem_singleton] at h
          subst h
          rfl)).2
    · intro st hst htouch
      rw [hall st hst] at htouch
      cases htouch
    · intro pre post e
      exact absurd (by rw [e]; simp) t1
    · intro pre hpre
      exact Or.inl (t2 pre hpre)
  · obtain ⟨hall, -⟩ := base_steps sys config tmp
      (tmpl (filterContainers config containers)).chunks (fs config.Dest) k hne
    obtain ⟨t1, t2⟩ := trace_without_rename sys fs tmp config.Dest _ hall
    rw [h4]
    refine ⟨?_, ?_, ?_, ?_, ?_⟩
    · exact (head_and_writes sys config tmp _ _ (fun st hst =>
        chunk_permSteps tmp _ st (List.mem_of_mem_take hst))).1
    · exact (head_and_writes sys config tmp _ _ (fun st hst =>
        chunk_permSteps tmp _ st (List.mem_of_mem_take hst))).2
    · intro st hst htouch
      rw [hall st hst] at htouch
      cases htouch
    · intro pre post e
      exact absurd (by rw [e]; simp) t1
    · intro pre hpre
      exact Or.inl (t2 pre hpre)

/-- Witness of C7: the pass on the sample file system starts with the creation of
the temporary file, and after its first three steps (the temporary file holds only
a part of the output) the destination is as it was or holds the complete output. -/
theorem destination_replaced_only_by_rename_witness :
    sampleConfig.Dest ≠ [] ∧ sampleSys.tempFile = some "/etc/docker-gen042".toList
      ∧ "/etc/docker-gen042".toList ≠ sampleConfig.Dest
      ∧ (generateFile sampleSys (.ok sampleTemplate) sampleConfig testContainers sampleFS).steps.head?
          = some (Step.createTemp (sampleSys.Dir sampleConfig.Dest) "docker-gen".toList
              "/etc/docker-gen042".toList)
      ∧ (applySteps sampleSys sampleFS
            ((generateFile sampleSys (.ok sampleTemplate) sampleConfig testContainers
              sampleFS).steps.take 3) sampleConfig.Dest = sampleFS sampleConfig.Dest
          ∨ ((sampleTemplate (filterContainers sampleConfig testContainers)).err = none
            ∧ applySteps sampleSys sampleFS
                ((generateFile sampleSys (.ok sampleTemplate) sampleConfig testContainers
                  sampleFS).steps.take 3) sampleConfig.Dest
              = some (renamedFile sampleSys (rendered sampleTemplate sampleConfig testContainers)
                  (sampleFS sampleConfig.Dest)))) :=
  ⟨by decide, rfl, by decide,
   (destination_replaced_only_by_rename sampleSys sampleTemplate sampleConfig testContainers
      sampleFS "/etc/docker-gen042".toList (by decide) rfl (by decide)).1,
   (destination_replaced_only_by_rename sampleSys sampleTemplate sampleConfig testContainers
      sampleFS "/etc/docker-gen042".toList (by decide) rfl (by decide)).2.2.2.2 _
        (List.take_prefix 3 _)⟩

/-! ## Lemmas on groupByMulti -/

theorem groupByMultiItems_spec (v : RuntimeContainer) (items : List Str)
    (g : GoMap Str (List RuntimeContainer))
    (hne : ∀ kv ∈ g, kv.2 ≠ []) (hk : (g.map Prod.fst).Nodup) :
    (∀ k, (mapLookup (groupByMultiItems v items g) k).getD []
        = (mapLookup g k).getD []
          ++ (items.filter (fun item => decide (item = k))).map (fun _ => v))
      ∧ (∀ kv ∈ groupByMultiItems v items g, kv.2 ≠ [])
      ∧ ((groupByMultiItems v items g).map Prod.fst).Nodup := by
  induction items generalizing g with
  | nil => exact ⟨fun k => by simp [groupByMultiItems], hne, hk⟩
  | cons item items ih =>
    have hne2 : ∀ kv ∈ mapStore g item ((mapLookup g item).getD [] ++ [v]), kv.2 ≠ [] := by
      intro kv hkv
      rcases mem_mapStore _ _ _ _ hkv with e | e
      · subst e; simp
      · exact hne kv e
    obtain ⟨h1, h2, h3⟩ := ih _ hne2 (nodup_keys_mapStore _ _ _ hk)
    refine ⟨fun k => ?_, h2, h3⟩
    show (mapLookup (groupByMultiItems v items _) k).getD [] = _
    rw [h1 k, mapLookup_mapStore]
    by_cases e : item = k
    · subst e
      simp [List.filter_cons]
    · simp [e, List.filter_cons]

theorem multiGroup_append (deepGet : RuntimeContainer → Str → Value) (key sep k : Str)
    (seen : List RuntimeContainer) (v : RuntimeContainer) :
    multiGroup deepGet (seen ++ [v]) key sep k
      = multiGroup deepGet seen key sep k
        ++ ((itemsOf deepGet key sep v).filter (fun item => decide (item = k))).map
            (fun _ => v) := by
  simp [multiGroup, List.flatMap_append]

theorem groupByMulti_grouped (deepGet : RuntimeContainer → Str → Value) (key sep : Str)
    (entries seen : List RuntimeContainer) (g : GoMap Str (List RuntimeContainer))
    (hg : GroupedMulti deepGet key sep seen g) (h : ∀ v ∈ entries, deepGet v key ≠ .other) :
    ∃ g', groupByMulti deepGet entries key sep g = some g'
      ∧ GroupedMulti deepGet key sep (seen ++ entries) g' := by
  induction entries generalizing seen g with
  | nil => exact ⟨g, rfl, by simpa using hg⟩
  | cons v rest ih =>
    have hrest : ∀ w ∈ rest, deepGet w key ≠ .other := fun w hw => h w (List.mem_cons_of_mem _ hw)
    have e : seen ++ v :: rest = (seen ++ [v]) ++ rest := by simp
    rw [e]
    unfold groupByMulti
    cases hv : deepGet v key with
    | nil =>
      refine ih _ _ ?_ hrest
      exact
        { group := fun k => by
            rw [multiGroup_append, hg.group k]
            simp [itemsOf, hv]
          nonempty := hg.nonempty
          keys := hg.keys }
    | str s =>
      obtain ⟨h1, h2, h3⟩ := groupByMultiItems_spec v (Split s sep) g hg.nonempty hg.keys
      refine ih _ _ ?_ hrest
      exact
        { group := fun k => by
            rw [multiGroup_append, h1 k, hg.group k]
            simp [itemsOf, hv]
          nonempty := h2
          keys := h3 }
    | other => exact absurd hv (h v (List.mem_cons_self _ _))

theorem groupByMulti_panics (deepGet : RuntimeContainer → Str → Value) (key sep : Str)
    (entries : List RuntimeContainer) (g : GoMap Str (List RuntimeContainer))
    (h : ∃ v ∈ entries, deepGet v key = .other) :
    groupByMulti deepGet entries key sep g = none := by
  induction entries generalizing g with
  | nil => simp at h
  | cons v rest ih =>
    unfold groupByMulti
    cases hv : deepGet v key with
    | other => rfl
    | nil =>
      refine ih _ ?_
      obtain ⟨w, hw, hw2⟩ := h
      rcases List.mem_cons.1 hw with e | e
      · subst e; rw [hv] at hw2; cases hw2
      · exact ⟨w, e, hw2⟩
    | str s =>
      refine ih _ ?_
      obtain ⟨w, hw, hw2⟩ := h
      rcases List.mem_cons.1 hw with e | e
      · subst e; rw [hv] at hw2; cases hw2
      · exact ⟨w, e, hw2⟩

theorem mem_multiGroup (deepGet : RuntimeContainer → Str → Value) (key sep k : Str)
    (entries : List RuntimeContainer) (v : RuntimeContainer) :
    v ∈ multiGroup deepGet entries key sep k
      ↔ v ∈ entries ∧ ∃ s, deepGet v key = .str s ∧ k ∈ Split s sep := by
  simp only [multiGroup, List.mem_flatMap, List.mem_map, List.mem_filter, decide_eq_true_eq]
  constructor
  · rintro ⟨w, hw, item, ⟨hitem, rfl⟩, rfl⟩
    refine ⟨hw, ?_⟩
    unfold itemsOf at hitem
    cases hv : deepGet w key with
    | str s => rw [hv] at hitem; exact ⟨s, rfl, hitem⟩
    | nil => rw [hv] at hitem; simp at hitem
    | other => rw [hv] at hitem; simp at hitem
  · rintro ⟨hv, s, hs, hk⟩
    exact ⟨v, hv, k, ⟨by simp [itemsOf, hs, hk], rfl⟩, rfl⟩

theorem mem_keys_iff {κ α : Type} [DecidableEq κ] (m : GoMap κ α) (k : κ) :
    k ∈ m.map Prod.fst ↔ ∃ a, mapLookup m k = some a := by
  induction m with
  | nil => simp [mapLookup]
  | cons kv m ih =>
    obtain ⟨k0, a0⟩ := kv
    by_cases h : k0 = k
    · subst h; simp [mapLookup]
    · have h2 : ¬ k = k0 := fun e => h e.symm
      simp [mapLookup, h, h2, ih]

/-! ## Claims on groupByMulti -/

/-- C11: whenever `groupByMulti` returns, the group under `k` lists, in input order,
the containers that have a string value at the key path one of whose items (the
parts of the value cut at the separator) is `k`, once for every such item, so a
container is in the group of each of its items and in no other group; with items
that do not repeat, the group is the sub-list of those containers; and the keys are
exactly the items of all such containers.  It returns when no container has a value
at the key path that is present and not a string, and panics otherwise. -/
theorem groupByMulti_groups_by_items (deepGet : RuntimeContainer → Str → Value)
    (entries : List RuntimeContainer) (key sep : Str) :
    (∀ g, groupByMulti deepGet entries key sep [] = some g →
      (∀ k, (mapLookup g k).getD [] = multiGroup deepGet entries key sep k)
        ∧ (∀ k v, v ∈ (mapLookup g k).getD []
            ↔ v ∈ entries ∧ ∃ s, deepGet v key = .str s ∧ k ∈ Split s sep)
        ∧ ((∀ v ∈ entries, (itemsOf deepGet key sep v).Nodup) →
            ∀ k, (mapLookup g k).getD []
              = entries.filter (fun v => decide (k ∈ itemsOf deepGet key sep v)))
        ∧ (∀ k, k ∈ g.map Prod.fst
            ↔ ∃ v ∈ entries, ∃ s, deepGet v key = .str s ∧ k ∈ Split s sep)
        ∧ (g.map Prod.fst).Nodup)
      ∧ ((∀ v ∈ entries, deepGet v key ≠ .other) →
          ∃ g, groupByMulti deepGet entries key sep [] = some g)
      ∧ ((∃ v ∈ entries, deepGet v key = .other) →
          groupByMulti deepGet entries key sep [] = none) := by
  have h0 : GroupedMulti deepGet key sep [] [] :=
    { group := fun k => by simp [mapLookup, multiGroup]
      nonempty := fun kv hkv => by simp at hkv
      keys := by simp }
  refine ⟨fun g hg => ?_, fun h => ?_, groupByMulti_panics deepGet key sep entries []⟩
  · have hno : ∀ v ∈ entries, deepGet v key ≠ .other := by
      intro v hv e
      rw [groupByMulti_panics deepGet key sep entries [] ⟨v, hv, e⟩] at hg
      cases hg
    obtain ⟨g', hg', hG⟩ := groupByMulti_grouped deepGet key sep entries [] [] h0 hno
    rw [hg] at hg'
    cases hg'
    rw [List.nil_append] at hG
    refine ⟨hG.group, fun k v => ?_, fun hnd k => ?_, fun k => ?_, hG.keys⟩
    · rw [hG.group k, mem_multiGroup]
    · rw [hG.group k]
      unfold multiGroup
      clear hg hG hno
      induction entries with
      | nil => rfl
      | cons v rest ih =>
        rw [List.flatMap_cons, ih (fun w hw => hnd w (List.mem_cons_of_mem _ hw)),
          List.filter_cons]
        have hv := hnd v (List.mem_cons_self _ _)
        by_cases hk : k ∈ itemsOf deepGet key sep v
        · have hc : ((itemsOf deepGet key sep v).filter (fun item => decide (item = k))).length
              = 1 := by
            rw [← List.countP_eq_length_filter]
            have := List.count_eq_one_of_mem hv hk
            simpa [List.count, beq_iff_eq] using this
          obtain ⟨x, hx⟩ := List.length_eq_one.1 hc
          simp [hx, hk]
        · have hc : (itemsOf deepGet key sep v).filter (fun item => decide (item = k)) = [] := by
            rw [List.filter_eq_nil_iff]
            intro a ha e
            simp only [decide_eq_true_eq] at e
            exact hk (e ▸ ha)
          simp [hc, hk]
    · rw [mem_keys_iff]
      constructor
      · rintro ⟨grp, hgrp⟩
        have hne : grp ≠ [] := by
          have hmem : (k, grp) ∈ g := by
            clear hG hg
            induction g with
            | nil => simp [mapLookup] at hgrp
            | cons kv m ih =>
              obtain ⟨k0, a0⟩ := kv
              by_cases e : k0 = k
              · subst e
                simp only [mapLookup, if_true, Option.some.injEq] at hgrp
                subst hgrp
                exact List.mem_cons_self _ _
              · simp only [mapLookup, e, if_false] at hgrp
                exact List.mem_cons_of_mem _ (ih hgrp)
          exact hG.nonempty _ hmem
        have hgk := hG.group k
        rw [hgrp] at hgk
        simp only [Option.getD_some] at hgk
        obtain ⟨v, hv⟩ := List.exists_mem_of_ne_nil grp hne
        rw [hgk, mem_multiGroup] at hv
        exact ⟨v, hv.1, hv.2⟩
      · rintro ⟨v, hv, s, hs, hk⟩
        have hm : v ∈ multiGroup deepGet entries key sep k :=
          (mem_multiGroup deepGet key sep k entries v).2 ⟨hv, s, hs, hk⟩
        rw [← hG.group k] at hm
        cases hl : mapLookup g k with
        | none => rw [hl] at hm; simp at hm
        | some grp => exact ⟨grp, rfl⟩
  · obtain ⟨g, hg, -⟩ := groupByMulti_grouped deepGet key sep entries [] [] h0 h
    exact ⟨g, hg⟩

/-- Witness of C11: the container with the hosts `a,b` is in the groups `a` and `b`,
the container with the host `b` in the group `b`. -/
theorem groupByMulti_groups_by_items_witness :
    groupByMulti deepGet multiContainers "Env.VIRTUAL_HOST".toList ",".toList []
        = some [("a".toList, [testContainer "1".toList "a,b".toList]),
                ("b".toList, [testContainer "1".toList "a,b".toList,
                              testContainer "2".toList "b".toList])]
      ∧ (∀ k, (mapLookup [("a".toList, [testContainer "1".toList "a,b".toList]),
                ("b".toList, [testContainer "1".toList "a,b".toList,
                              testContainer "2".toList "b".toList])] k).getD []
            = multiGroup deepGet multiContainers "Env.VIRTUAL_HOST".toList ",".toList k) :=
  ⟨by decide,
   ((groupByMulti_groups_by_items deepGet multiContainers "Env.VIRTUAL_HOST".toList
      ",".toList).1 _ (by decide)).1⟩

/-! ## Claims on arrayClosest -/

theorem closest_step (input : Str) (seen : List Str) (best v : Str)
    (h : ClosestInv input seen best) :
    ClosestInv input (seen ++ [v])
      (if Contains input v && decide (best.length < v.length) then v else best) := by
  by_cases hc : Contains input v = true ∧ best.length < v.length
  · obtain ⟨hc1, hc2⟩ := hc
    have hif : (Contains input v && decide (best.length < v.length)) = true := by
      simp [hc1, hc2]
    rw [if_pos hif]
    right
    have hv : v ≠ [] := by
      intro e
      rw [e] at hc2
      simp at hc2
    have hall : ∀ w ∈ seen, Contains input w = true → w.length ≤ best.length := by
      intro w hw hcw
      rcases h with ⟨-, h2⟩ | ⟨-, -, h3, -⟩
      · rw [h2 w hw hcw]; simp
      · exact h3 w hw hcw
    refine ⟨hv, hc1, ?_, seen, [], rfl, ?_⟩
    · intro w hw hcw
      rcases List.mem_append.1 hw with hw | hw
      · exact le_of_lt (lt_of_le_of_lt (hall w hw hcw) hc2)
      · simp only [List.mem_singleton] at hw
        rw [hw]
    · intro w hw hcw
      exact lt_of_le_of_lt (hall w hw hcw) hc2
  · have hif : ¬ (Contains input v && decide (best.length < v.length)) = true := by
      simpa using hc
    rw [if_neg hif]
    have hle : Contains input v = true → v.length ≤ best.length := by
      intro hcv
      by_contra hlt
      exact hc ⟨hcv, by omega⟩
    rcases h with ⟨h1, h2⟩ | ⟨h1, h2, h3, p1, p2, h4, h5⟩
    · left
      refine ⟨h1, fun w hw hcw => ?_⟩
      rcases List.mem_append.1 hw with hw | hw
      · exact h2 w hw hcw
      · simp only [List.mem_singleton] at hw
        subst hw
        have := hle hcw
        rw [h1] at this
        exact List.length_eq_zero.1 (by simpa using this)
    · right
      refine ⟨h1, h2, fun w hw hcw => ?_, p1, p2 ++ [v], by simp [h4], h5⟩
      rcases List.mem_append.1 hw with hw | hw
      · exact h3 w hw hcw
      · simp only [List.mem_singleton] at hw
        subst hw
        exact hle hcw

theorem closest_fold (input : Str) (rest seen : List Str) (best : Str)
    (h : ClosestInv input seen best) :
    ClosestInv input (seen ++ rest)
      (rest.foldl
        (fun best v => if Contains input v && decide (best.length < v.length) then v else best)
        best) := by
  induction rest generalizing seen best with
  | nil => simpa using h
  | cons v rest ih =>
    have e : seen ++ v :: rest = (seen ++ [v]) ++ rest := by simp
    rw [e, List.foldl_cons]
    exact ih _ _ (closest_step input seen best v h)

/-- C12: when some non-empty member of `values` occurs in `input`, `arrayClosest`
returns a member of `values` that occurs in `input`, at least as long as every
member that occurs in `input`, and the earliest of that length in list order (every
member before it that occurs in `input` is shorter); when no non-empty member occurs
in `input`, it returns the empty string. -/
theorem arrayClosest_longest_match (values : List Str) (input : Str) :
    ((∃ v ∈ values, v ≠ [] ∧ Contains input v = true) →
        arrayClosest values input ∈ values
          ∧ Contains input (arrayClosest values input) = true
          ∧ (∀ v ∈ values, Contains input v = true →
              v.length ≤ (arrayClosest values input).length)
          ∧ ∃ pre post, values = pre ++ arrayClosest values input :: post
              ∧ ∀ v ∈ pre, Contains input v = true →
                  v.length < (arrayClosest values input).length)
      ∧ ((∀ v ∈ values, v ≠ [] → Contains input v = false) →
          arrayClosest values input = []) := by
  have h0 : ClosestInv input [] [] := Or.inl ⟨rfl, fun v hv => by simp at hv⟩
  have h := closest_fold input values [] [] h0
  rw [List.nil_append] at h
  change ClosestInv input values (arrayClosest values input) at h
  constructor
  · rintro ⟨v, hv, hne, hcv⟩
    rcases h with ⟨-, h2⟩ | ⟨-, h2, h3, p1, p2, h4, h5⟩
    · exact absurd (h2 v hv hcv) hne
    · have hm : ∀ b : Str, values = p1 ++ b :: p2 → b ∈ values := fun b e => by
        rw [e]
        simp
      exact ⟨hm _ h4, h2, h3, p1, p2, h4, h5⟩
  · intro hnone
    rcases h with ⟨h1, -⟩ | ⟨h1, h2, -, p1, p2, h4, -⟩
    · exact h1
    · have hm : ∀ b : Str, values = p1 ++ b :: p2 → b ∈ values := fun b e => by
        rw [e]
        simp
      have := hnone _ (hm _ h4) h1
      rw [h2] at this
      cases this

/-- Witness of C12 on the values of `TestArrayClosestExact` and
`TestArrayClosestNoMatch`. -/
theorem arrayClosest_longest_match_witness :
    arrayClosest ["foo.bar.com".toList, "bar.com".toList] "foo.bar.com".toList
        = "foo.bar.com".toList
      ∧ arrayClosest ["foo.bar.com".toList, "bar.com".toList] "foo.bar.com".toList
          ∈ ["foo.bar.com".toList, "bar.com".toList]
      ∧ arrayClosest ["foo.fo.com".toList, "bip.com".toList] "foo.bar.com".toList = [] :=
  ⟨by decide,
   ((arrayClosest_longest_match ["foo.bar.com".toList, "bar.com".toList]
      "foo.bar.com".toList).1 ⟨"bar.com".toList, by decide, by decide, by decide⟩).1,
   (arrayClosest_longest_match ["foo.fo.com".toList, "bip.com".toList]
      "foo.bar.com".toList).2 (by decide)⟩

/-! ## Claims on dict -/

theorem getElem?_pair_even (pre : List Any) (x y : Any) (i : Nat) (hpre : pre.length % 2 = 0)
    (hi : i % 2 = 0) (z : Any) :
    (pre ++ [x, y])[i]? = some z ↔ pre[i]? = some z ∨ (i = pre.length ∧ z = x) := by
  rcases Nat.lt_trichotomy i pre.length with h | h | h
  · rw [List.getElem?_append_left h]
    constructor
    · exact Or.inl
    · rintro (h1 | ⟨h1, -⟩)
      · exact h1
      · omega
  · subst h
    have e1 : (pre ++ [x, y])[pre.length]? = some x := by
      rw [List.getElem?_append_right (le_refl _)]
      simp
    have e2 : pre[pre.length]? = none := List.getElem?_eq_none (le_refl _)
    rw [e1, e2]
    constructor
    · intro e
      exact Or.inr ⟨rfl, (Option.some.inj e).symm⟩
    · rintro (e | ⟨-, e⟩)
      · cases e
      · rw [e]
  · have h2 : pre.length + 2 ≤ i := by omega
    have e1 : (pre ++ [x, y])[i]? = none := List.getElem?_eq_none (by simp; omega)
    have e2 : pre[i]? = none := List.getElem?_eq_none (by omega)
    rw [e1, e2]
    constructor
    · intro e; cases e
    · rintro (e | ⟨e, -⟩)
      · cases e
      · omega

theorem getElem?_pair_odd (pre : List Any) (x y : Any) (i : Nat) (hpre : pre.length % 2 = 0)
    (hi : i % 2 = 0) (z : Any) :
    (pre ++ [x, y])[i + 1]? = some z ↔ pre[i + 1]? = some z ∨ (i = pre.length ∧ z = y) := by
  rcases Nat.lt_trichotomy i pre.length with h | h | h
  · have h2 : i + 1 < pre.length := by omega
    rw [List.getElem?_append_left h2]
    constructor
    · exact Or.inl
    · rintro (h1 | ⟨h1, -⟩)
      · exact h1
      · omega
  · subst h
    have e1 : (pre ++ [x, y])[pre.length + 1]? = some y := by
      rw [List.getElem?_append_right (by omega)]
      simp
    have e2 : pre[pre.length + 1]? = none := List.getElem?_eq_none (by omega)
    rw [e1, e2]
    constructor
    · intro e
      exact Or.inr ⟨rfl, (Option.some.inj e).symm⟩
    · rintro (e | ⟨-, e⟩)
      · cases e
      · rw [e]
  · have e1 : (pre ++ [x, y])[i + 1]? = none := List.getElem?_eq_none (by simp; omega)
    have e2 : pre[i + 1]? = none := List.getElem?_eq_none (by omega)
    rw [e1, e2]
    constructor
    · intro e; cases e
    · rintro (e | ⟨e, -⟩)
      · cases e
      · omega

theorem getElem?_lt_of_eq_some (l : List Any) (i : Nat) (z : Any) (h : l[i]? = some z) :
    i < l.length := by
  by_contra hc
  rw [List.getElem?_eq_none (by omega)] at h
  cases h

theorem DictInv.step {pre : List Any} {d : GoMap Str Any} (h : DictInv pre d)
    (hpre : pre.length % 2 = 0) (key : Str) (value : Any) :
    DictInv (pre ++ [.str key, value]) (mapStore d key value) where
  keys := by
    intro k
    rw [keys_mapStore]
    have hR : (∃ i, i % 2 = 0 ∧ (pre ++ [Any.str key, value])[i]? = some (Any.str k))
        ↔ (k ∈ d.map Prod.fst ∨ k = key) := by
      rw [h.keys k]
      constructor
      · rintro ⟨i, hi, h1⟩
        rcases (getElem?_pair_even pre _ _ i hpre hi _).1 h1 with h2 | ⟨-, h2⟩
        · exact Or.inl ⟨i, hi, h2⟩
        · exact Or.inr (Any.str.inj h2)
      · rintro (⟨i, hi, h1⟩ | e)
        · exact ⟨i, hi, (getElem?_pair_even pre _ _ i hpre hi _).2 (Or.inl h1)⟩
        · exact ⟨pre.length, hpre,
            (getElem?_pair_even pre _ _ _ hpre hpre _).2 (Or.inr ⟨rfl, by rw [e]⟩)⟩
    rw [hR]
    split
    · constructor
      · exact Or.inl
      · rintro (e | e)
        · exact e
        · rw [e]; assumption
    · simp only [List.mem_append, List.mem_singleton]
  nodup := nodup_keys_mapStore _ _ _ h.nodup
  value := by
    intro k a
    rw [mapLookup_mapStore]
    by_cases hk : key = k
    · subst hk
      rw [if_pos rfl]
      constructor
      · intro e
        have e2 : a = value := (Option.some.inj e).symm
        subst e2
        refine ⟨pre.length, hpre,
          (getElem?_pair_even pre _ _ _ hpre hpre _).2 (Or.inr ⟨rfl, rfl⟩),
          (getElem?_pair_odd pre _ _ _ hpre hpre _).2 (Or.inr ⟨rfl, rfl⟩), ?_⟩
        intro j hj hj2 hc
        rcases (getElem?_pair_even pre _ _ j hpre hj2 _).1 hc with h2 | ⟨h2, -⟩
        · have := getElem?_lt_of_eq_some pre j _ h2
          omega
        · omega
      · rintro ⟨i, hi, h1, h2, h3⟩
        rcases (getElem?_pair_even pre _ _ i hpre hi _).1 h1 with h4 | ⟨h4, -⟩
        · have hlt := getElem?_lt_of_eq_some pre i _ h4
          exact absurd ((getElem?_pair_even pre _ _ _ hpre hpre _).2 (Or.inr ⟨rfl, rfl⟩))
            (h3 pre.length hlt hpre)
        · rcases (getElem?_pair_odd pre _ _ i hpre hi _).1 h2 with h5 | ⟨-, h5⟩
          · have := getElem?_lt_of_eq_some pre (i + 1) _ h5
            omega
          · rw [h5]
    · rw [if_neg hk, h.value k a]
      have hne : Any.str k ≠ Any.str key := fun e => hk (Any.str.inj e).symm
      constructor
      · rintro ⟨i, hi, h1, h2, h3⟩
        refine ⟨i, hi, (getElem?_pair_even pre _ _ i hpre hi _).2 (Or.inl h1),
          (getElem?_pair_odd pre _ _ i hpre hi _).2 (Or.inl h2), ?_⟩
        intro j hj hj2 hc
        rcases (getElem?_pair_even pre _ _ j hpre hj2 _).1 hc with h4 | ⟨-, h4⟩
        · exact h3 j hj hj2 h4
        · exact hne h4
      · rintro ⟨i, hi, h1, h2, h3⟩
        rcases (getElem?_pair_even pre _ _ i hpre hi _).1 h1 with h4 | ⟨-, h4⟩
        · have hlt := getElem?_lt_of_eq_some pre i _ h4
          rcases (getElem?_pair_odd pre _ _ i hpre hi _).1 h2 with h5 | ⟨h5, -⟩
          · refine ⟨i, hi, h4, h5, ?_⟩
            intro j hj hj2 hc
            exact h3 j hj hj2 ((getElem?_pair_even pre _ _ j hpre hj2 _).2 (Or.inl hc))
          · omega
        · exact absurd h4 hne

theorem dictLoop_spec (n : Nat) (pre rest : List Any) (d : GoMap Str Any)
    (hlen : rest.length = 2 * n) (hpre : pre.length % 2 = 0) (hP : DictInv pre d) :
    (∃ d', dictLoop rest d = some (.ok d') ∧ DictInv (pre ++ rest) d'
        ∧ ∀ i x, i % 2 = 0 → rest[i]? = some x → ∃ s, x = .str s)
      ∨ (∃ e, dictLoop rest d = some (.error e)
        ∧ ∃ i x, i % 2 = 0 ∧ rest[i]? = some x ∧ ∀ s, x ≠ .str s) := by
  induction n generalizing pre rest d with
  | zero =>
    have : rest = [] := List.length_eq_zero.1 (by omega)
    subst this
    left
    exact ⟨d, rfl, by simpa using hP, fun i x _ h => by simp at h⟩
  | succ n ih =>
    match rest, hlen with
    | [], hlen => simp at hlen
    | [_], hlen => simp at hlen; omega
    | x :: y :: rest', hlen =>
      have hlen' : rest'.length = 2 * n := by
        simp only [List.length_cons] at hlen
        omega
      cases x with
      | str key =>
        have hpre' : (pre ++ [Any.str key, y]).length % 2 = 0 := by
          simp only [List.length_append, List.length_cons, List.length_nil]
          omega
        have e : pre ++ Any.str key :: y :: rest' = (pre ++ [Any.str key, y]) ++ rest' := by
          simp
        rcases ih (pre ++ [Any.str key, y]) rest' (mapStore d key y) hlen' hpre'
            (hP.step hpre key y) with ⟨d', h1, h2, h3⟩ | ⟨err, h1, i, z, hi, h2, h3⟩
        · left
          refine ⟨d', h1, by rw [e]; exact h2, ?_⟩
          intro i z hi hz
          match i, hi, hz with
          | 0, _, hz =>
            simp only [List.getElem?_cons_zero, Option.some.injEq] at hz
            exact ⟨key, hz.symm⟩
          | 1, hi, _ => omega
          | i + 2, hi, hz =>
            simp only [List.getElem?_cons_succ] at hz
            exact h3 i z (by omega) hz
        · right
          exact ⟨err, h1, i + 2, z, by omega, by simpa using h2, h3⟩
      | nil =>
        right
        exact ⟨_, rfl, 0, Any.nil, rfl, rfl, fun s e => by cases e⟩
      | other m =>
        right
        exact ⟨_, rfl, 0, Any.other m, rfl, rfl, fun s e => by cases e⟩

/-- C13: `dict` fails exactly when the number of arguments is odd or some argument
at an even position is not a string (and it never panics); otherwise the keys of
the map it returns are exactly the strings at the even positions, each key maps to
the argument that follows its last occurrence, and a key that is at no even
position is not in the map. -/
theorem dict_builds_mapping (values : List Any) :
    ((∃ e, dict values = some (.error e))
        ↔ (values.length % 2 ≠ 0
          ∨ ∃ i x, i % 2 = 0 ∧ values[i]? = some x ∧ ∀ s, x ≠ .str s))
      ∧ dict values ≠ none
      ∧ (∀ d, dict values = some (.ok d) →
          (∀ k, k ∈ d.map Prod.fst ↔ ∃ i, i % 2 = 0 ∧ values[i]? = some (.str k))
            ∧ (d.map Prod.fst).Nodup
            ∧ (∀ k a, mapLookup d k = some a ↔ LastAt values k a)
            ∧ (∀ k, (∀ i, i % 2 = 0 → values[i]? ≠ some (.str k)) → mapLookup d k = none)) := by
  have h0 : DictInv [] [] :=
    { keys := fun k => by simp
      nodup := by simp
      value := fun k a => by
        simp only [mapLookup, LastAt]
        constructor
        · intro e; cases e
        · rintro ⟨i, -, h, -⟩
          simp at h }
  by_cases hodd : values.length % 2 ≠ 0
  · have hd : dict values = some (.error "invalid dict call".toList) := by
      unfold dict
      rw [if_pos hodd]
    rw [hd]
    exact ⟨⟨fun _ => Or.inl hodd, fun _ => ⟨_, rfl⟩⟩, fun e => (by cases e),
      fun d e => (by cases e)⟩
  · have hd : dict values = dictLoop values [] := by
      unfold dict
      rw [if_neg hodd]
    have hlen : values.length = 2 * (values.length / 2) := by omega
    rw [hd]
    rcases dictLoop_spec (values.length / 2) [] values [] hlen rfl h0 with
      ⟨d', h1, h2, h3⟩ | ⟨err, h1, i, z, hi, h2, h3⟩
    · rw [h1, List.nil_append] at *
      refine ⟨⟨fun ⟨e, he⟩ => (by cases he), ?_⟩, fun e => (by cases e), fun d e => ?_⟩
      · rintro (h | ⟨i, x, hi, hx, hns⟩)
        · exact absurd h hodd
        · obtain ⟨s, hs⟩ := h3 i x hi hx
          exact absurd hs (hns s)
      · have : d = d' := by
          cases e
          rfl
        subst this
        refine ⟨h2.keys, h2.nodup, h2.value, fun k hk => ?_⟩
        cases hl : mapLookup d k with
        | none => rfl
        | some a =>
          obtain ⟨i, hi, h4, -⟩ := (h2.value k a).1 hl
          exact absurd h4 (hk i hi)
    · rw [h1]
      exact ⟨⟨fun _ => Or.inr ⟨i, z, hi, h2, h3⟩, fun _ => ⟨_, rfl⟩⟩, fun e => (by cases e),
        fun d e => (by cases e)⟩

/-- Witness of C13 on the call of `TestDict`: the key `/` is in the map and the key
`MISSING` is not. -/
theorem dict_builds_mapping_witness :
    dict [.str "/".toList, .other 1] = some (.ok [("/".toList, .other 1)])
      ∧ mapLookup [("/".toList, Any.other 1)] "MISSING".toList = none
      ∧ (∃ e, dict [.str "/".toList, .other 1, .nil, .other 2] = some (.error e)) :=
  ⟨by rfl,
   ((dict_builds_mapping [.str "/".toList, .other 1]).2.2 _ (by rfl)).2.2.2 _
      (fun i hi => by
        match i with
        | 0 => decide
        | 1 => omega
        | i + 2 => simp),
   (dict_builds_mapping [.str "/".toList, .other 1, .nil, .other 2]).1.2
      (Or.inr ⟨2, .nil, rfl, rfl, fun s e => by cases e⟩)⟩

/-! ## Claims on arrayFirst, arrayLast, stringHead and stringTail -/

/-- C14: on a non-empty sequence `arrayFirst` returns the element at index 0 and
`arrayLast` the element at index length-1; on an empty sequence and on a nil input
`arrayFirst` returns nil without failing; on an empty sequence `arrayLast` fails with
an index out of range. -/
theorem arrayFirst_arrayLast_elements (α : Type) :
    (∀ xs : List α, xs ≠ [] →
        ∃ a b, xs[0]? = some a ∧ xs[xs.length - 1]? = some b
          ∧ arrayFirst (.seq xs) = .ok (some a) ∧ arrayLast (.seq xs) = .ok (some b))
      ∧ arrayFirst (.seq ([] : List α)) = .ok none
      ∧ arrayFirst (.nil : SeqInput α) = .ok none
      ∧ arrayLast (.seq ([] : List α)) = .error .indexOutOfRange := by
  refine ⟨fun xs hxs => ?_, rfl, rfl, rfl⟩
  have hlen : 0 < xs.length := List.length_pos.2 hxs
  have h0 : xs[0]? = some xs[0] := List.getElem?_eq_getElem hlen
  have hl : xs[xs.length - 1]? = some xs[xs.length - 1] :=
    List.getElem?_eq_getElem (by omega)
  refine ⟨xs[0], xs[xs.length - 1], h0, hl, ?_, ?_⟩
  · have hne : ¬ xs.length = 0 := by omega
    simp only [arrayFirst, hne, if_false, List.get?_eq_getElem?, h0]
  · have hi : ¬ ((xs.length : Int) - 1 < 0) := by omega
    have ht : ((xs.length : Int) - 1).toNat = xs.length - 1 := by omega
    simp only [arrayLast, hi, if_false, ht, List.get?_eq_getElem?, hl]

/-- Witness of C14 on the sequence 4, 5, 6. -/
theorem arrayFirst_arrayLast_elements_witness :
    ∃ a b, [4, 5, 6][0]? = some a ∧ [4, 5, 6][[4, 5, 6].length - 1]? = some b
      ∧ arrayFirst (.seq [4, 5, 6]) = .ok (some a) ∧ arrayLast (.seq [4, 5, 6]) = .ok (some b) :=
  (arrayFirst_arrayLast_elements Nat).1 [4, 5, 6] (by decide)

/-- C15: for `0 ≤ n < len(s)`, `stringHead(s, n)` is the first `n` bytes of `s` and
`stringTail(s, n)` the last `n` bytes; for `n ≥ len(s)`, `stringHead(s, n)` is `s`
and `stringTail(s, n)` is empty; neither call panics. -/
theorem stringHead_stringTail_bytes (s : Str) (n : Nat) :
    (n < s.length →
        stringHead s n = some (s.take n) ∧ stringTail s n = some (s.drop (s.length - n))
          ∧ (s.take n).length = n ∧ (s.drop (s.length - n)).length = n
          ∧ s.take n <+: s ∧ s.drop (s.length - n) <:+ s)
      ∧ (s.length ≤ n → stringHead s n = some s ∧ stringTail s n = some []) := by
  constructor
  · intro h
    have h1 : ¬ ((s.length : Int) ≤ (n : Int)) := by omega
    have h2 : (0 : Int) ≤ (n : Int) ∧ (n : Int) ≤ (s.length : Int) := by omega
    have h3 : (0 : Int) ≤ (s.length : Int) - (n : Int)
        ∧ (s.length : Int) - (n : Int) ≤ (s.length : Int) := by omega
    have h4 : ((s.length : Int) - (n : Int)).toNat = s.length - n := by omega
    refine ⟨?_, ?_, ?_, ?_, List.take_prefix _ _, List.drop_suffix _ _⟩
    · simp only [stringHead, h1, if_false, sliceTo?, h2, and_self, if_true, Int.toNat_ofNat]
    · simp only [stringTail, h1, if_false, sliceFrom?, h3, and_self, if_true, h4]
    · rw [List.length_take]; omega
    · rw [List.length_drop]; omega
  · intro h
    have h1 : (s.length : Int) ≤ (n : Int) := by omega
    simp [stringHead, stringTail, h1]

/-- Witness of C15 on the strings of `TestStringHead` and `TestStringTail`. -/
theorem stringHead_stringTail_bytes_witness :
    stringHead "tcp://127.0.0.1:2375".toList (6 : Nat) = some "tcp://".toList
      ∧ stringTail "catscatscatsinhats".toList (4 : Nat) = some "hats".toList
      ∧ stringHead "abc".toList (7 : Nat) = some "abc".toList
      ∧ stringTail "abc".toList (7 : Nat) = some [] :=
  ⟨((stringHead_stringTail_bytes "tcp://127.0.0.1:2375".toList 6).1 (by decide)).1,
   ((stringHead_stringTail_bytes "catscatscatsinhats".toList 4).1 (by decide)).2.1,
   ((stringHead_stringTail_bytes "abc".toList 7).2 (by decide)).1,
   ((stringHead_stringTail_bytes "abc".toList 7).2 (by decide)).2⟩

/-! ## Claims on marshalJson and marshalJsonPretty -/

theorem TrimSuffix_append (body suf : Str) : TrimSuffix (body ++ suf) suf = body := by
  have h : HasSuffix (body ++ suf) suf = true := by
    simp [HasSuffix]
  simp [TrimSuffix, h]

/-- The text of `marshalJson` does not end with a newline. -/
theorem marshalJson_no_trailing_newline {α : Type} (lib : JsonLib α) (hE : EncodeEndsLine lib)
    (v : α) (text : Str) (h : marshalJson lib v = (text, none)) :
    text.getLast? ≠ some '\n' := by
  unfold marshalJson marshalJsonInternal at h
  cases he : lib.Encode v with
  | error e => simp [he] at h
  | ok buf =>
    obtain ⟨body, hb, hn⟩ := hE v buf he
    simp only [he, Bool.false_eq_true, if_false, Prod.mk.injEq, and_true] at h
    have e1 : "\n".toList = ['\n'] := rfl
    rw [hb, e1, TrimSuffix_append] at h
    subst h
    intro hl
    exact hn (List.mem_of_getLast?_eq_some hl)

/-- The text of `marshalJsonPretty` ends with the newline that `Encode` wrote. -/
theorem marshalJsonPretty_trailing_newline {α : Type} (lib : JsonLib α)
    (hE : EncodeEndsLine lib) (hI : IndentKeepsLine lib)
    (v : α) (text : Str) (h : marshalJsonPretty lib v = (text, none)) :
    text.getLast? = some '\n' := by
  cases he : lib.Encode v with
  | error e =>
    have key : marshalJsonPretty lib v = ([], some e) := by
      unfold marshalJsonPretty marshalJsonInternal
      rw [he]
    rw [key] at h
    cases h
  | ok buf =>
    obtain ⟨body, hb, -⟩ := hE v buf he
    have key : marshalJsonPretty lib v
        = (match lib.Indent buf [] "    ".toList with
          | .ok out => (out, none)
          | .error err => ([], some err)) := by
      unfold marshalJsonPretty marshalJsonInternal
      rw [he]
      rfl
    rw [key] at h
    cases hi : lib.Indent buf [] "    ".toList with
    | error e =>
      rw [hi] at h
      cases h
    | ok out =>
      rw [hi] at h
      cases h
      exact hI buf _ _ _ hi (by rw [hb]; simp)

/-- C16, at the failing input: for the number 42 the text of `marshalJson` is `42`,
and the text of `marshalJsonPretty` is `42` followed by a newline: the newline that
`Encode` writes is trimmed only when `prettify` is false. -/
theorem marshalJsonPretty_keeps_newline :
    marshalJson numberJson 42 = ("42".toList, none)
      ∧ marshalJsonPretty numberJson 42 = ("42\n".toList, none)
      ∧ (marshalJsonPretty numberJson 42).1.getLast? = some '\n' := by
  decide

/-! ## Lemmas for parseHost -/

theorem indexFrom_nonneg_iff (sub s : Str) (i : Nat) :
    0 ≤ indexFrom sub s i ↔ sub <:+: s := by
  induction s generalizing i with
  | nil =>
    simp only [indexFrom, List.infix_nil]
    split
    · rename_i h
      simp [h]
    · rename_i h
      simp [h]
  | cons x xs ih =>
    simp only [indexFrom, List.infix_cons_iff]
    split
    · rename_i h
      have hp := List.isPrefixOf_iff_prefix.1 h
      simp [hp]
    · rename_i h
      have hp : ¬ sub <+: x :: xs := fun e => h (List.isPrefixOf_iff_prefix.2 e)
      rw [ih (i + 1)]
      simp [hp]

/-- `strings.Contains` is the infix relation. -/
theorem Contains_iff_part (s sub : Str) : Contains s sub = true ↔ sub <:+: s := by
  simp [Contains, Index, indexFrom_nonneg_iff]

theorem dropWhile_pivot (q : Char → Bool) (xs : Str) (y : Char) (ys : Str) (hy : q y = false) :
    (xs ++ y :: ys).dropWhile q = xs.dropWhile q ++ y :: ys := by
  induction xs with
  | nil => simp [List.dropWhile, hy]
  | cons x xs ih =>
    by_cases hx : q x = true
    · simp [List.dropWhile, hx, ih]
    · simp [List.dropWhile, hx]

/-- Trailing white space is removed up to the last character that is not white
space. -/
theorem trimRightSpace_pivot (xs : Str) (y : Char) (ys : Str) (hy : isSpace y = false) :
    trimRightSpace (xs ++ y :: ys) = xs ++ y :: trimRightSpace ys := by
  unfold trimRightSpace
  have e : (xs ++ y :: ys).reverse = ys.reverse ++ y :: xs.reverse := by simp
  rw [e, dropWhile_pivot isSpace _ y _ hy]
  simp

theorem trimRightSpace_initial (s : Str) : trimRightSpace s <+: s := by
  unfold trimRightSpace
  have h := List.dropWhile_suffix isSpace (l := s.reverse)
  have := List.reverse_prefix.2 h
  simpa using this

theorem TrimSpace_part (s : Str) : TrimSpace s <:+: s := by
  unfold TrimSpace
  exact (trimRightSpace_initial _).isInfix.trans (List.dropWhile_suffix isSpace).isInfix

theorem count_dropWhile (q : Char → Bool) (c : Char) (l : Str) (hc : q c = false) :
    (l.dropWhile q).count c = l.count c := by
  induction l with
  | nil => rfl
  | cons x xs ih =>
    by_cases hx : q x = true
    · have hne : x ≠ c := by
        intro e
        rw [e, hc] at hx
        cases hx
      simp [List.dropWhile, hx, ih, List.count_cons, hne]
    · simp [List.dropWhile, hx]

theorem count_TrimSpace (c : Char) (s : Str) (hc : isSpace c = false) :
    (TrimSpace s).count c = s.count c := by
  unfold TrimSpace trimRightSpace
  rw [List.count_reverse, count_dropWhile isSpace c _ hc, List.count_reverse,
    count_dropWhile isSpace c _ hc]

theorem count_trimRightSpace (c : Char) (s : Str) (hc : isSpace c = false) :
    (trimRightSpace s).count c = s.count c := by
  unfold trimRightSpace
  rw [List.count_reverse, count_dropWhile isSpace c _ hc, List.count_reverse]

theorem length_genSplit_single (c : Char) (n : Nat) (s : Str) (h : s.length ≤ n) :
    (genSplit [c] n s).length = s.count c + 1 := by
  induction n generalizing s with
  | zero =>
    have : s = [] := List.length_eq_zero.1 (by omega)
    subst this
    rfl
  | succ n ih =>
    by_cases hm : c ∈ s
    · obtain ⟨r, t, rfl, hr⟩ := List.eq_append_cons_of_mem hm
      rw [genSplit_append c n r t hr, List.length_cons, ih t (by simp at h; omega)]
      simp [List.count_append, List.count_eq_zero_of_not_mem hr]
    · rw [genSplit_of_not_mem c _ s hm, List.count_eq_zero_of_not_mem hm]
      rfl

/-- The number of parts of a string cut at a character is one more than the number
of occurrences of the character. -/
theorem length_Split_single (c : Char) (s : Str) : (Split s [c]).length = s.count c + 1 := by
  simp [Split, length_genSplit_single c _ s (le_refl _)]

theorem HasPrefix_append (pre rest : Str) : HasPrefix (pre ++ rest) pre = true := by
  unfold HasPrefix
  exact List.isPrefixOf_iff_prefix.2 (List.prefix_append _ _)

theorem TrimPrefix_append (pre rest : Str) : TrimPrefix (pre ++ rest) pre = rest := by
  simp [TrimPrefix, HasPrefix_append]

theorem mem_of_HasPrefix (s pre : Str) (h : HasPrefix s pre = true) (c : Char) (hc : c ∈ pre) :
    c ∈ s :=
  (List.isPrefixOf_iff_prefix.1 h).subset hc

theorem Contains_of_HasPrefix (s x sub : Str) (h : HasPrefix s (x ++ sub) = true) :
    Contains s sub = true := by
  rw [Contains_iff_part]
  obtain ⟨t, ht⟩ := List.isPrefixOf_iff_prefix.1 h
  exact ⟨x, t, by rw [← ht]⟩

theorem parseHostAddr_unix (addr : Str) :
    parseHostAddr "unix".toList addr = .ok ("unix".toList, addr) := by
  have h : ¬ ("unix".toList = "tcp".toList) := by decide
  simp [parseHostAddr, h]

theorem parseHostAddr_tcp_no_colon (a : Str) (h : ':' ∉ a) :
    parseHostAddr "tcp".toList a = .error ("Invalid bind address format: ".toList ++ a) := by
  have e : ":".toList = [':'] := rfl
  have hc : Contains a [':'] = false := by
    rw [← Bool.not_eq_true, Contains_single]
    exact h
  simp [parseHostAddr, e, hc]

theorem parseHostAddr_tcp_many (a : Str) (h : 2 ≤ a.count ':') :
    parseHostAddr "tcp".toList a = .error ("Invalid bind address format: ".toList ++ a) := by
  have e : ":".toList = [':'] := rfl
  have hm : ':' ∈ a := List.count_pos_iff.1 (by omega)
  have hc : Contains a [':'] = true := (Contains_single ':' a).2 hm
  have hu : "tcp".toList ≠ "unix".toList := by decide
  have hl : (Split a [':']).length ≠ 2 := by
    rw [length_Split_single]
    omega
  simp only [parseHostAddr, e, hc, hu, ne_eq, not_false_eq_true, and_self, if_true, hl]

/-- The result for `host:port` with one `:`. -/
theorem parseHostAddr_tcp_host_port (h p : Str) (hh : ':' ∉ h) (hp : ':' ∉ p) :
    parseHostAddr "tcp".toList (h ++ ':' :: p)
      = match Atoi p with
        | some n =>
          if n ≠ 0 then
            .ok ("tcp".toList,
              (if h ≠ [] then h else "127.0.0.1".toList) ++ ":".toList ++ formatInt n)
          else .error ("Invalid bind address format: ".toList ++ (h ++ ':' :: p))
        | none => .error ("Invalid bind address format: ".toList ++ (h ++ ':' :: p)) := by
  have e : ":".toList = [':'] := rfl
  have hc : Contains (h ++ ':' :: p) [':'] = true := (Contains_single ':' _).2 (by simp)
  have hu : "tcp".toList ≠ "unix".toList := by decide
  have hs : Split (h ++ ':' :: p) [':'] = [h, p] := by
    rw [Split_append ':' h p hh, genSplit_of_not_mem ':' _ p hp]
  simp only [parseHostAddr, e, hc, hu, ne_eq, not_false_eq_true, and_self, if_true, hs,
    List.length_cons, List.length_nil, not_true_eq_false, if_false, List.getD_cons_zero,
    List.getD_cons_succ]

theorem parseHost_unix_scheme (addr rest : Str) (h : TrimSpace addr = "unix://".toList ++ rest) :
    parseHost addr
      = .ok ("unix".toList, if rest = [] then "/var/run/docker.sock".toList else rest) := by
  have hne : ¬ ("unix://".toList ++ rest = "tcp://".toList) := by
    intro e
    have := congrArg List.head? e
    simp at this
  simp only [parseHost, h, hne, if_false, HasPrefix_append, if_true, TrimPrefix_append,
    parseHostAddr_unix]

theorem parseHost_tcp_scheme (addr rest : Str) (h : TrimSpace addr = "tcp://".toList ++ rest)
    (hr : rest ≠ []) : parseHost addr = parseHostAddr "tcp".toList rest := by
  have hne : ¬ ("tcp://".toList ++ rest = "tcp://".toList) := by
    intro e
    have := congrArg List.length e
    simp at this
    exact hr this
  have hu : HasPrefix ("tcp://".toList ++ rest) "unix://".toList = false := by
    simp [HasPrefix, List.isPrefixOf]
  simp only [parseHost, h, hne, if_false, hu, Bool.false_eq_true, HasPrefix_append, if_true,
    TrimPrefix_append]

theorem parseHost_tcp_empty (addr : Str) (h : TrimSpace addr = "tcp://".toList) :
    parseHost addr = .error ("Invalid bind address format: ".toList ++ "tcp://".toList) := by
  simp only [parseHost, h, if_true]

/-- An address without `://` that is not empty after trimming is read as a `tcp`
address. -/
theorem parseHost_no_scheme (addr : Str) (hc : Contains (TrimSpace addr) "://".toList = false)
    (hne : TrimSpace addr ≠ []) :
    parseHost addr = parseHostAddr "tcp".toList (TrimSpace addr) := by
  have h1 : ¬ (TrimSpace addr = "tcp://".toList) := by
    intro e
    rw [e] at hc
    revert hc
    decide
  have hp : ∀ x : Str, HasPrefix (TrimSpace addr) (x ++ "://".toList) = false := by
    intro x
    rw [← Bool.not_eq_true]
    intro e
    rw [Contains_of_HasPrefix _ x _ e] at hc
    cases hc
  have h2 : HasPrefix (TrimSpace addr) "unix://".toList = false := hp "unix".toList
  have h3 : HasPrefix (TrimSpace addr) "tcp://".toList = false := hp "tcp".toList
  have h4 : HasPrefix (TrimSpace addr) "fd://".toList = false := hp "fd".toList
  simp only [parseHost, h1, if_false, h2, h3, h4, Bool.false_eq_true, hne, hc]

/-- An address with `://` and none of the three schemes is refused. -/
theorem parseHost_unknown_scheme (addr : Str) (hc : Contains (TrimSpace addr) "://".toList = true)
    (h2 : HasPrefix (TrimSpace addr) "unix://".toList = false)
    (h3 : HasPrefix (TrimSpace addr) "tcp://".toList = false)
    (h4 : HasPrefix (TrimSpace addr) "fd://".toList = false) :
    parseHost addr
      = .error ("Invalid bind address protocol: ".toList ++ TrimSpace addr) := by
  have h1 : ¬ (TrimSpace addr = "tcp://".toList) := by
    intro e
    rw [e] at h3
    revert h3
    decide
  have hne : TrimSpace addr ≠ [] := by
    intro e
    rw [e] at hc
    revert hc
    decide
  simp only [parseHost, h1, if_false, h2, h3, h4, Bool.false_eq_true, hne, hc, if_true]

/-! ## Claims on parseHost -/

/-- C17: for every endpoint string that, after trimming surrounding white space,
starts with `unix://`, `parseHost` succeeds with the protocol `unix` and the text
after that prefix as address, or `/var/run/docker.sock` when that text is empty; and
for the empty endpoint string it succeeds with `unix` and `/var/run/docker.sock`. -/
theorem parseHost_unix (addr rest : Str) (h : TrimSpace addr = "unix://".toList ++ rest) :
    parseHost addr
        = .ok ("unix".toList, if rest = [] then "/var/run/docker.sock".toList else rest)
      ∧ parseHost [] = .ok ("unix".toList, "/var/run/docker.sock".toList) :=
  ⟨parseHost_unix_scheme addr rest h, rfl⟩

/-- Witness of C17 on ` unix:///tmp/d.sock ` and on `unix://`. -/
theorem parseHost_unix_witness :
    TrimSpace " unix:///tmp/d.sock ".toList = "unix://".toList ++ "/tmp/d.sock".toList
      ∧ parseHost " unix:///tmp/d.sock ".toList = .ok ("unix".toList, "/tmp/d.sock".toList)
      ∧ parseHost "unix://".toList = .ok ("unix".toList, "/var/run/docker.sock".toList) :=
  ⟨by decide,
   (parseHost_unix " unix:///tmp/d.sock ".toList "/tmp/d.sock".toList (by decide)).1,
   (parseHost_unix "unix://".toList [] (by decide)).1⟩

theorem TrimSpace_tcp (rest : Str) :
    TrimSpace ("tcp://".toList ++ rest) = "tcp://".toList ++ trimRightSpace rest := by
  have e1 : "tcp://".toList ++ rest = 't' :: ("cp:/".toList ++ '/' :: rest) := rfl
  have e2 : ('t' :: ("cp:/".toList ++ '/' :: rest)) = "tcp:/".toList ++ '/' :: rest := rfl
  have e3 : "tcp://".toList ++ trimRightSpace rest
      = "tcp:/".toList ++ '/' :: trimRightSpace rest := rfl
  have ht : isSpace 't' = false := by decide
  have hs : isSpace '/' = false := by decide
  unfold TrimSpace
  rw [e1, List.dropWhile_cons_of_neg (by simp [ht]), e2, trimRightSpace_pivot _ _ _ hs, e3]

theorem append_cons_inj_left (c : Char) (a b x y : Str) (h : a ++ c :: x = b ++ c :: y)
    (ha : c ∉ a) (hb : c ∉ b) : a = b := by
  induction a generalizing b with
  | nil =>
    cases b with
    | nil => rfl
    | cons b0 b =>
      simp only [List.nil_append, List.cons_append, List.cons.injEq] at h
      exact absurd (by simp [h.1]) hb
  | cons a0 a ih =>
    cases b with
    | nil =>
      simp only [List.nil_append, List.cons_append, List.cons.injEq] at h
      exact absurd (by simp [h.1]) ha
    | cons b0 b =>
      simp only [List.cons_append, List.cons.injEq] at h
      rw [h.1, ih b h.2 (fun e => ha (List.mem_cons_of_mem _ e))
        (fun e => hb (List.mem_cons_of_mem _ e))]

/-- An address whose text before `://` has no `:` and is not `known` does not start
with `known://`. -/
theorem not_HasPrefix_scheme (scheme rest known : Str) (hs : ':' ∉ scheme) (hk : ':' ∉ known)
    (hne : scheme ≠ known) :
    HasPrefix (scheme ++ "://".toList ++ rest) (known ++ "://".toList) = false := by
  rw [← Bool.not_eq_true]
  intro h
  obtain ⟨t, ht⟩ := List.isPrefixOf_iff_prefix.1 h
  have e : known ++ ':' :: ("//".toList ++ t) = scheme ++ ':' :: ("//".toList ++ rest) := by
    have e1 : "://".toList = ':' :: "//".toList := rfl
    rw [e1] at ht
    simpa using ht
  exact hne (append_cons_inj_left ':' known scheme _ _ e hk hs).symm

theorem Contains_false_of_part (s t sub : Str) (h : t <:+: s) (hc : Contains s sub = false) :
    Contains t sub = false := by
  rw [← Bool.not_eq_true, Contains_iff_part] at hc ⊢
  exact fun e => hc (e.trans h)

/-- C18, as stated, fails: `80 ` (with a trailing blank) is not a decimal integer,
yet `parseHost` of `tcp://h:80 ` succeeds, because the address is trimmed first;
likewise ` unix://x` succeeds although the text before `://` is not `unix`. -/
theorem parseHost_port_counterexample :
    ':' ∉ "h".toList ∧ Atoi "80 ".toList = none
      ∧ parseHost ("tcp://".toList ++ "h".toList ++ ":".toList ++ "80 ".toList)
          = .ok ("tcp".toList, "h:80".toList)
      ∧ parseHost (" unix".toList ++ "://".toList ++ "x".toList)
          = .ok ("unix".toList, "x".toList) :=
  ⟨by decide, by decide, by rfl, by rfl⟩

theorem parseHost_tcp_host_port (h p : Str) :
    parseHost ("tcp://".toList ++ h ++ ":".toList ++ p)
      = parseHostAddr "tcp".toList (h ++ ':' :: trimRightSpace p) := by
  have e : "tcp://".toList ++ h ++ ":".toList ++ p = "tcp://".toList ++ (h ++ ':' :: p) := by
    simp
  have hc : isSpace ':' = false := by decide
  rw [e]
  exact parseHost_tcp_scheme _ _
    (by rw [TrimSpace_tcp, trimRightSpace_pivot _ _ _ hc]) (by simp)

/-- C18, amended: for a host `h` without `:`, `parseHost` of `tcp://h:p` returns an
error whenever `p` without its trailing white space is not a decimal integer or is
one that is 0 (so, for `p` that does not end in white space, whenever `p` is `0` or
is not a decimal integer); it returns an error for every `tcp://` address and every
address without `://` that has more than two parts between `:`; and it returns an
error for every address that, after trimming surrounding white space, contains `://`
and does not start with `unix://`, `tcp://` or `fd://`, in particular when the text
before `://` has no `:` and is not `unix`, `tcp` or `fd`. -/
theorem parseHost_invalid_forms :
    (∀ h p : Str, ':' ∉ h →
        (Atoi (trimRightSpace p) = none ∨ Atoi (trimRightSpace p) = some 0) →
        ∃ e, parseHost ("tcp://".toList ++ h ++ ":".toList ++ p) = .error e)
      ∧ (∀ h p : Str, ':' ∉ h → trimRightSpace p = p → (p = "0".toList ∨ Atoi p = none) →
        ∃ e, parseHost ("tcp://".toList ++ h ++ ":".toList ++ p) = .error e)
      ∧ (∀ rest : Str, 2 < (Split rest ":".toList).length →
        ∃ e, parseHost ("tcp://".toList ++ rest) = .error e)
      ∧ (∀ addr : Str, Contains addr "://".toList = false →
        2 < (Split addr ":".toList).length → ∃ e, parseHost addr = .error e)
      ∧ (∀ addr : Str, Contains (TrimSpace addr) "://".toList = true →
        HasPrefix (TrimSpace addr) "unix://".toList = false →
        HasPrefix (TrimSpace addr) "tcp://".toList = false →
        HasPrefix (TrimSpace addr) "fd://".toList = false → ∃ e, parseHost addr = .error e)
      ∧ (∀ addr scheme rest : Str, TrimSpace addr = scheme ++ "://".toList ++ rest →
        ':' ∉ scheme → scheme ≠ "unix".toList → scheme ≠ "tcp".toList →
        scheme ≠ "fd".toList → ∃ e, parseHost addr = .error e) := by
  have hcolon : isSpace ':' = false := by decide
  have e1 : ":".toList = [':'] := rfl
  have part1 : ∀ h p : Str, ':' ∉ h →
      (Atoi (trimRightSpace p) = none ∨ Atoi (trimRightSpace p) = some 0) →
      ∃ e, parseHost ("tcp://".toList ++ h ++ ":".toList ++ p) = .error e := by
    intro h p hh hp
    rw [parseHost_tcp_host_port h p]
    by_cases hm : ':' ∈ trimRightSpace p
    · refine ⟨_, parseHostAddr_tcp_many _ ?_⟩
      have : 0 < (trimRightSpace p).count ':' := List.count_pos_iff.2 hm
      simp only [List.count_append, List.count_cons_self]
      omega
    · rw [parseHostAddr_tcp_host_port h _ hh hm]
      rcases hp with hp | hp <;> rw [hp]
      · exact ⟨_, rfl⟩
      · exact ⟨_, rfl⟩
  have part5 : ∀ addr : Str, Contains (TrimSpace addr) "://".toList = true →
      HasPrefix (TrimSpace addr) "unix://".toList = false →
      HasPrefix (TrimSpace addr) "tcp://".toList = false →
      HasPrefix (TrimSpace addr) "fd://".toList = false → ∃ e, parseHost addr = .error e :=
    fun addr hc h2 h3 h4 => ⟨_, parseHost_unknown_scheme addr hc h2 h3 h4⟩
  refine ⟨part1, ?_, ?_, ?_, part5, ?_⟩
  · intro h p hh ht hp
    refine part1 h p hh ?_
    rw [ht]
    rcases hp with hp | hp
    · right
      rw [hp]
      decide
    · exact Or.inl hp
  · intro rest hlen
    rw [e1, length_Split_single] at hlen
    have hc : 2 ≤ (trimRightSpace rest).count ':' := by
      rw [count_trimRightSpace ':' rest hcolon]
      omega
    have hne : trimRightSpace rest ≠ [] := by
      intro e
      rw [e] at hc
      simp at hc
    rw [parseHost_tcp_scheme _ _ (TrimSpace_tcp rest) hne]
    exact ⟨_, parseHostAddr_tcp_many _ hc⟩
  · intro addr hno hlen
    rw [e1, length_Split_single] at hlen
    have hc : 2 ≤ (TrimSpace addr).count ':' := by
      rw [count_TrimSpace ':' addr hcolon]
      omega
    have hne : TrimSpace addr ≠ [] := by
      intro e
      rw [e] at hc
      simp at hc
    rw [parseHost_no_scheme addr (Contains_false_of_part _ _ _ (TrimSpace_part addr) hno) hne]
    exact ⟨_, parseHostAddr_tcp_many _ hc⟩
  · intro addr scheme rest ha hs h1 h2 h3
    have hc : Contains (TrimSpace addr) "://".toList = true := by
      rw [Contains_iff_part, ha]
      exact ⟨scheme, rest, rfl⟩
    refine part5 addr hc ?_ ?_ ?_
    · rw [ha]
      exact not_HasPrefix_scheme scheme rest "unix".toList hs (by decide) h1
    · rw [ha]
      exact not_HasPrefix_scheme scheme rest "tcp".toList hs (by decide) h2
    · rw [ha]
      exact not_HasPrefix_scheme scheme rest "fd".toList hs (by decide) h3

/-- Witness of the amended C18 on `tcp://h:0`, `tcp://h:abc`, `tcp://a:b:c`, `a:b:c`
and `udp://127.0.0.1`. -/
theorem parseHost_invalid_forms_witness :
    (∃ e, parseHost ("tcp://".toList ++ "h".toList ++ ":".toList ++ "0".toList) = .error e)
      ∧ (∃ e, parseHost ("tcp://".toList ++ "h".toList ++ ":".toList ++ "abc".toList) = .error e)
      ∧ (∃ e, parseHost ("tcp://".toList ++ "a:b:c".toList) = .error e)
      ∧ (∃ e, parseHost "a:b:c".toList = .error e)
      ∧ (∃ e, parseHost "udp://127.0.0.1".toList = .error e) :=
  ⟨parseHost_invalid_forms.2.1 _ _ (by decide) (by decide) (Or.inl rfl),
   parseHost_invalid_forms.1 _ _ (by decide) (Or.inl (by decide)),
   parseHost_invalid_forms.2.2.1 _ (by decide),
   parseHost_invalid_forms.2.2.2.1 _ (by decide) (by decide),
   parseHost_invalid_forms.2.2.2.2.2 "udp://127.0.0.1".toList "udp".toList "127.0.0.1".toList
     (by decide) (by decide) (by decide) (by decide) (by decide)⟩

theorem digit_cases (c : Char) (h0 : '0' ≤ c) (h9 : c ≤ '9') :
    c ∈ ['0', '1', '2', '3', '4', '5', '6', '7', '8', '9'] := by
  have h1 : 48 ≤ c.toNat := h0
  have h2 : c.toNat ≤ 57 := h9
  have h3 := Char.ofNat_toNat c
  rw [← h3]
  interval_cases c.toNat <;> decide

theorem parseDigits_digits (ds : Str) (acc m : Nat) (h : parseDigits ds acc = some m) :
    ∀ c ∈ ds, c ∈ ['0', '1', '2', '3', '4', '5', '6', '7', '8', '9'] := by
  induction ds generalizing acc with
  | nil => intro c hc; simp at hc
  | cons d ds ih =>
    unfold parseDigits at h
    by_cases hd : '0' ≤ d ∧ d ≤ '9'
    · rw [if_pos hd] at h
      intro c hc
      rcases List.mem_cons.1 hc with e | e
      · rw [e]; exact digit_cases d hd.1 hd.2
      · exact ih _ h c e
    · rw [if_neg hd] at h
      cases h

/-- A string that `Atoi` accepts is made of decimal digits and signs. -/
theorem Atoi_chars (s : Str) (n : Int) (h : Atoi s = some n) :
    ∀ c ∈ s, c ∈ ['0', '1', '2', '3', '4', '5', '6', '7', '8', '9', '+', '-'] := by
  have hd : ∀ ds : Str, ∀ f : Nat → Option Int, (parseDigits ds 0).bind f = some n →
      ∀ c ∈ ds, c ∈ ['0', '1', '2', '3', '4', '5', '6', '7', '8', '9', '+', '-'] := by
    intro ds f hf c hc
    cases hp : parseDigits ds 0 with
    | none => rw [hp] at hf; cases hf
    | some m =>
      have := parseDigits_digits ds 0 m hp c hc
      simp only [List.mem_cons, List.mem_singleton, List.not_mem_nil, or_false] at this ⊢
      tauto
  unfold Atoi at h
  split at h
  · cases h
  · rename_i ds
    by_cases e : ds = []
    · rw [if_pos e] at h; cases h
    · rw [if_neg e] at h
      intro c hc
      rcases List.mem_cons.1 hc with e2 | e2
      · rw [e2]; decide
      · exact hd ds _ h c e2
  · rename_i ds
    by_cases e : ds = []
    · rw [if_pos e] at h; cases h
    · rw [if_neg e] at h
      intro c hc
      rcases List.mem_cons.1 hc with e2 | e2
      · rw [e2]; decide
      · exact hd ds _ h c e2
  · exact hd s _ h

theorem trimRightSpace_of_no_space (s : Str) (h : ∀ c ∈ s, isSpace c = false) :
    trimRightSpace s = s := by
  unfold trimRightSpace
  have : s.reverse.dropWhile isSpace = s.reverse := by
    cases hr : s.reverse with
    | nil => rfl
    | cons x xs =>
      have hx : isSpace x = false := h x (by
        have : x ∈ s.reverse := by rw [hr]; exact List.mem_cons_self _ _
        simpa using this)
      simp [List.dropWhile, hx]
  rw [this, List.reverse_reverse]

/-- C19, as stated, fails: `localhost` is a non-empty address without `://` and
without `:`, and `parseHost` returns an error for it. -/
theorem parseHost_bare_host_counterexample :
    "localhost".toList ≠ [] ∧ Contains "localhost".toList "://".toList = false
      ∧ ':' ∉ "localhost".toList
      ∧ parseHost "localhost".toList
          = .error "Invalid bind address format: localhost".toList :=
  ⟨by decide, by decide, by decide, by rfl⟩

/-- C19, amended: for an address without `://` of the form `h:p`, with no `:` in `h`
and `p` a decimal integer other than 0, `parseHost` succeeds and returns the
protocol `tcp`; for an address with no `:` at all that is not only white space,
`parseHost` returns an error (line 65), and for one that is only white space it
returns the protocol `unix` with the default socket. -/
theorem parseHost_bare_address :
    (∀ (h p : Str) (n : Int), ':' ∉ h →
        Contains (h ++ ":".toList ++ p) "://".toList = false → Atoi p = some n → n ≠ 0 →
        parseHost (h ++ ":".toList ++ p)
          = .ok ("tcp".toList,
              (if h.dropWhile isSpace ≠ [] then h.dropWhile isSpace else "127.0.0.1".toList)
                ++ ":".toList ++ formatInt n))
      ∧ (∀ addr : Str, ':' ∉ addr → TrimSpace addr ≠ [] →
        parseHost addr = .error ("Invalid bind address format: ".toList ++ TrimSpace addr))
      ∧ (∀ addr : Str, TrimSpace addr = [] →
        parseHost addr = .ok ("unix".toList, "/var/run/docker.sock".toList)) := by
  have hcolon : isSpace ':' = false := by decide
  refine ⟨?_, ?_, ?_⟩
  · intro h p n hh hno hp hn
    have hchars := Atoi_chars p n hp
    have hsp : ∀ c ∈ p, isSpace c = false := by
      intro c hc
      have := hchars c hc
      revert this
      generalize c = d
      intro hd
      simp only [List.mem_cons, List.mem_singleton, List.not_mem_nil, or_false] at hd
      rcases hd with e | e | e | e | e | e | e | e | e | e | e | e <;> rw [e] <;> decide
    have hpc : ':' ∉ p := by
      intro hc
      have := hchars ':' hc
      revert this
      decide
    have e : h ++ ":".toList ++ p = h ++ ':' :: p := by simp
    have ht : TrimSpace (h ++ ':' :: p) = h.dropWhile isSpace ++ ':' :: p := by
      unfold TrimSpace
      rw [dropWhile_pivot isSpace h ':' p hcolon, trimRightSpace_pivot _ _ _ hcolon,
        trimRightSpace_of_no_space p hsp]
    have hh' : ':' ∉ h.dropWhile isSpace :=
      fun hc => hh ((List.dropWhile_suffix isSpace).subset hc)
    rw [e] at hno ⊢
    rw [parseHost_no_scheme _
        (Contains_false_of_part _ _ _ (TrimSpace_part _) hno) (by rw [ht]; simp),
      ht, parseHostAddr_tcp_host_port _ p hh' hpc, hp]
    simp only [hn, ne_eq, not_false_eq_true, if_true]
  · intro addr hc hne
    have ha : ':' ∉ TrimSpace addr := fun h => hc ((TrimSpace_part addr).subset h)
    have hno : Contains (TrimSpace addr) "://".toList = false := by
      rw [← Bool.not_eq_true, Contains_iff_part]
      intro h
      exact ha (h.subset (by decide))
    rw [parseHost_no_scheme addr hno hne, parseHostAddr_tcp_no_colon _ ha]
  · intro addr he
    have h1 : ¬ (([] : Str) = "tcp://".toList) := by decide
    simp only [parseHost, he, h1, if_false]
    rfl

/-- Witness of the amended C19 on `0.0.0.0:2375` and on `localhost`. -/
theorem parseHost_bare_address_witness :
    parseHost ("0.0.0.0".toList ++ ":".toList ++ "2375".toList)
        = .ok ("tcp".toList, "0.0.0.0:2375".toList)
      ∧ parseHost "localhost".toList
          = .error ("Invalid bind address format: ".toList ++ TrimSpace "localhost".toList) :=
  ⟨parseHost_bare_address.1 "0.0.0.0".toList "2375".toList 2375 (by decide) (by decide)
      (by decide) (by decide),
   parseHost_bare_address.2.1 "localhost".toList (by decide) (by decide)⟩

/-! ## Claims on splitDockerImage, continued -/

theorem afterFirstSlash_append (r t : Str) (hr : '/' ∉ r) :
    afterFirstSlash (r ++ '/' :: t) = t := by
  have hm : '/' ∈ r ++ '/' :: t := by simp
  have hq : (fun c => decide (c ≠ '/')) '/' = false := by simp
  have hd : r.dropWhile (fun c => decide (c ≠ '/')) = [] := by
    rw [List.dropWhile_eq_nil_iff]
    intro c hc
    have : c ≠ '/' := fun e => hr (e ▸ hc)
    simpa using this
  simp only [afterFirstSlash, hm, if_true]
  rw [dropWhile_pivot _ r '/' t hq, hd]
  rfl

/-- The repository and the tag cut from the part after the registry. -/
theorem cut_at_colon (t : Str) :
    (if ':' ∈ t then
        slice t 0 (Index t [':']) ++ ":".toList ++ sliceFrom t (Index t [':'] + 1)
      else t) = t
      ∧ ':' ∉ (if ':' ∈ t then slice t 0 (Index t [':']) else t) := by
  by_cases hm : ':' ∈ t
  · obtain ⟨p, g, rfl, hp⟩ := List.eq_append_cons_of_mem hm
    rw [if_pos hm, if_pos hm, Index_single_append ':' p g hp, slice_zero_append,
      sliceFrom_append]
    exact ⟨by simp, hp⟩
  · rw [if_neg hm, if_neg hm]
    exact ⟨rfl, hm⟩

/-- C20: the parts that `splitDockerImage` returns put back together give the image
string exactly (the rest is `repository:tag` when the part after the first `/`
contains `:` and the repository otherwise; the whole is `registry/rest` when the
image string contains `/` and the rest otherwise); the registry has no `/` and the
repository has no `:`. -/
theorem splitDockerImage_lossless (img : Str) :
    reassemble img = img
      ∧ '/' ∉ (splitDockerImage img).1
      ∧ ':' ∉ (splitDockerImage img).2.1 := by
  by_cases hs : '/' ∈ img
  · obtain ⟨r, t, rfl, hr⟩ := List.eq_append_cons_of_mem hs
    obtain ⟨h1, h2⟩ := cut_at_colon t
    unfold reassemble
    simp only [afterFirstSlash_append r t hr, splitDockerImage_registry r t hr, hs, if_true]
    by_cases hm : ':' ∈ t
    · simp only [hm, if_true] at h1 h2 ⊢
      refine ⟨?_, hr, h2⟩
      rw [h1]
      simp
    · simp only [hm, if_false] at h1 h2 ⊢
      exact ⟨by simp, hr, id⟩
  · obtain ⟨h1, h2⟩ := cut_at_colon img
    unfold reassemble
    have ha : afterFirstSlash img = img := by simp [afterFirstSlash, hs]
    simp only [ha, splitDockerImage_no_slash img hs, hs, if_false]
    by_cases hm : ':' ∈ img
    · simp only [hm, if_true] at h1 h2 ⊢
      exact ⟨h1, by simp, h2⟩
    · simp only [hm, if_false] at h1 h2 ⊢
      exact ⟨trivial, by simp, id⟩

/-! ## Claims on the filter of generateFile -/

theorem withFakeAddress_ne_nil (ip : Str) (addresses : List Address) :
    withFakeAddress ip addresses ≠ [] := by
  unfold withFakeAddress
  split
  · simp
  · rename_i h
    intro e
    exact h (by rw [e]; rfl)

/-- Every container that `getContainers` returns was built by the loop body from a
raw record. -/
theorem getContainers_built (client : Client) (cs : List RuntimeContainer)
    (h : getContainers client = some (.ok cs)) :
    ∀ c ∈ cs, ∃ r, buildContainer r = some c := by
  unfold getContainers at h
  cases hl : client.ListContainers with
  | error e => simp [hl] at h
  | ok apis =>
    simp only [hl] at h
    cases hg : getContainersLoop client apis [] with
    | none => simp [hg] at h
    | some cs' =>
      simp only [hg, Option.some.injEq, Except.ok.injEq] at h
      subst h
      obtain ⟨built, h1, h2⟩ := getContainersLoop_some client apis [] cs' hg
      simp only [List.nil_append] at h1
      subst h1
      intro c hc
      have hm : some c ∈ cs'.map some := List.mem_map_of_mem some hc
      rw [h2] at hm
      obtain ⟨r, -, hr⟩ := List.mem_map.1 hm
      exact ⟨r, hr⟩

/-- On a collection whose containers all have an address, the filter on containers
with an address keeps every container. -/
theorem filterContainers_exposed (config : Config) (cs : List RuntimeContainer)
    (hE : config.OnlyExposed = true) (hP : config.OnlyPublished = false)
    (h : ∀ c ∈ cs, c.Addresses ≠ []) : filterContainers config cs = cs := by
  simp only [filterContainers, hP, hE, Bool.false_eq_true, if_false, if_true]
  rw [List.filter_eq_self]
  intro c hc
  have := List.length_pos.2 (h c hc)
  simpa using this

/-- C21: for every collection returned by `getContainers`, every container has a
non-empty Addresses, so with `OnlyExposed` set and `OnlyPublished` unset the filter
of `generateFile` keeps the whole collection, in order: it is the collection that
is rendered with no filter at all, and the whole pass of `generateFile` is the same
as with no filter. -/
theorem exposed_filter_keeps_fetched (client : Client) (cs : List RuntimeContainer)
    (config : Config) (h : getContainers client = some (.ok cs))
    (hE : config.OnlyExposed = true) (hP : config.OnlyPublished = false) :
    (∀ c ∈ cs, c.Addresses ≠ [])
      ∧ filterContainers config cs = cs
      ∧ filterContainers config cs = filterContainers { config with OnlyExposed := false } cs
      ∧ ∀ (sys : Sys) (parsed : Except GoError Template) (fs : FS),
          generateFile sys parsed config cs fs
            = generateFile sys parsed { config with OnlyExposed := false } cs fs := by
  have hne : ∀ c ∈ cs, c.Addresses ≠ [] := by
    intro c hc
    obtain ⟨r, hr⟩ := getContainers_built client cs h c hc
    obtain ⟨-, -, ha, -⟩ := buildContainer_eq_some r c hr
    rw [ha]
    exact withFakeAddress_ne_nil _ _
  have h1 : filterContainers config cs = cs := filterContainers_exposed config cs hE hP hne
  have h2 : filterContainers { config with OnlyExposed := false } cs = cs := by
    simp [filterContainers, hP]
  refine ⟨hne, h1, by rw [h1, h2], fun sys parsed fs => ?_⟩
  unfold generateFile
  rw [h1, h2]
  rfl

/-- Witness of C21 on the two containers fetched from the sample client. -/
theorem exposed_filter_keeps_fetched_witness :
    getContainers sampleClient
        = some (.ok [{ sampleContainer "c1".toList [("A".toList, "b".toList)] with ID := "c1".toList },
                     { sampleContainer "c3".toList [("A".toList, "b".toList)] with ID := "c3".toList }])
      ∧ exposedConfig.OnlyExposed = true ∧ exposedConfig.OnlyPublished = false
      ∧ filterContainers exposedConfig
          [{ sampleContainer "c1".toList [("A".toList, "b".toList)] with ID := "c1".toList },
           { sampleContainer "c3".toList [("A".toList, "b".toList)] with ID := "c3".toList }]
        = [{ sampleContainer "c1".toList [("A".toList, "b".toList)] with ID := "c1".toList },
           { sampleContainer "c3".toList [("A".toList, "b".toList)] with ID := "c3".toList }] :=
  ⟨by rfl, rfl, rfl,
   (exposed_filter_keeps_fetched sampleClient _ exposedConfig (by rfl) rfl rfl).2.1⟩

end DockerGen
